import Mathlib

/-!
Shallow embedding of the relationship-graph core of the relations-obsidian
plugin (src/src/relation-graph.ts, src/src/relationship-engine.ts,
src/src/cycle-detector.ts, src/src/utils/path-finder.ts), together with
proofs checking the natural-language specification against it.

Document identity is the vault path string; a TFile is collapsed to its
identity key, since every algorithm in the core compares files by `.path`.
-/

namespace RelObs

/-- Document identity: the stable path-like key of a note. -/
abbrev Doc := String

/-- Per-document record of relation-graph.ts (interface NodeInfo):
the file itself plus its resolved parents and the derived children. -/
structure NodeInfo where
  file : Doc
  parents : List Doc
  children : List Doc
deriving Repr, DecidableEq

/-- The relation graph: the insertion-ordered `Map<string, NodeInfo>` of
class RelationGraph, embedded as an association list. -/
abbrev Graph := List (Doc × NodeInfo)

/-- Keys of the graph map, in insertion order. -/
def graphKeys (g : Graph) : List Doc :=
  g.map (fun e => e.1)

/-- `this.graph.get(p)` on the JS map. -/
def lookupNode (g : Graph) (p : Doc) : Option NodeInfo :=
  (g.find? (fun e => e.1 == p)).map (fun e => e.2)

/-- RelationGraph.getParents: `this.graph.get(file.path)?.parents || []`. -/
def getParents (g : Graph) (f : Doc) : List Doc :=
  match lookupNode g f with
  | some n => n.parents
  | none => []

/-- RelationGraph.getChildren: `this.graph.get(file.path)?.children || []`. -/
def getChildren (g : Graph) (f : Doc) : List Doc :=
  match lookupNode g f with
  | some n => n.children
  | none => []

/-- RelationGraph.getAllFiles: `Array.from(this.graph.values()).map(node => node.file)`. -/
def getAllFiles (g : Graph) : List Doc :=
  g.map (fun e => e.2.file)

/-- A graph state reachable by the class: keys are distinct (a JS Map)
and every node's `file` equals its key (build inserts at `file.path`). -/
def WellFormed (g : Graph) : Prop :=
  (graphKeys g).Nodup ∧ ∀ e ∈ g, e.2.file = e.1

/-! ## build (relation-graph.ts)

`build()` reads every markdown file once, records its resolved parent
links, then in a second pass pushes each node onto the children list of
each of its parents.  The input of the embedding is the outcome of the
first scan: the list of `(file.path, resolved parent paths)` pairs, in
vault enumeration order (frontmatter reading and link resolution are the
external collaborators of the spec and happen before this point). -/

/-- JS `Map.set`: overwrite in place if the key exists, else append. -/
def mapSet (g : Graph) (k : Doc) (v : NodeInfo) : Graph :=
  if g.any (fun e => e.1 == k) then
    g.map (fun e => if e.1 == k then (e.1, v) else e)
  else
    g ++ [(k, v)]

/-- First pass of build: `graph.set(file.path, { file, parents: parentLinks, children: [] })`. -/
def buildPass1 (input : List (Doc × List Doc)) : Graph :=
  input.foldl (fun g fp => mapSet g fp.1 ⟨fp.1, fp.2, []⟩) []

/-- `this.graph.get(parent.path)?.children.push(node.file)`: push onto the
children of the node stored at `parentPath`, a no-op when the key is absent. -/
def addChild (g : Graph) (parentPath : Doc) (childFile : Doc) : Graph :=
  g.map (fun e =>
    if e.1 == parentPath then (e.1, ⟨e.2.file, e.2.parents, e.2.children ++ [childFile]⟩)
    else e)

/-- Second pass of build: for every node (in map order), for every parent,
push the node's file onto that parent's children.  Children pushes never
touch the `file`/`parents` fields, so iterating the first-pass snapshot of
`(file, parents)` pairs is the mutable-map loop of the source. -/
def buildPass2 (g0 : Graph) : Graph :=
  (g0.map (fun e => (e.2.file, e.2.parents))).foldl
    (fun g cp => cp.2.foldl (fun h p => addChild h p cp.1) g) g0

/-- RelationGraph.build on the scanned corpus. -/
def build (input : List (Doc × List Doc)) : Graph :=
  buildPass2 (buildPass1 input)

/-! ## getAncestors (relationship-engine.ts)

Generational BFS over parent edges with a global visited set seeded with
the start file, plus a per-generation dedup set. -/

/-- Processing of one parent inside the generation loop; the state is
`(nextGeneration, seenInGeneration, visited)`. -/
def genVisit (st : List Doc × List Doc × List Doc) (parent : Doc) :
    List Doc × List Doc × List Doc :=
  if st.2.2.contains parent then st
  else if st.2.1.contains parent then st
  else (st.1 ++ [parent], st.2.1 ++ [parent], st.2.2 ++ [parent])

/-- One `level` iteration: scan the current generation left to right and
visit each of its parents. -/
def genStep (g : Graph) (visited currentGen : List Doc) :
    List Doc × List Doc × List Doc :=
  currentGen.foldl (fun st current => (getParents g current).foldl genVisit st)
    ([], [], visited)

/-- The `for (let level = 0; level < depth; level++)` loop of getAncestors. -/
def getAncestorsLoop (g : Graph) : Nat → List Doc → List Doc → List (List Doc)
  | 0, _, _ => []
  | d + 1, visited, currentGen =>
    let st := genStep g visited currentGen
    if st.1.isEmpty then []
    else st.1 :: getAncestorsLoop g d st.2.2 st.1

/-- RelationshipEngine.getAncestors with an explicit maxDepth.  A negative
TS depth runs the loop zero times, exactly as depth 0 does, so `Nat` depth
loses nothing. -/
def getAncestors (g : Graph) (file : Doc) (maxDepth : Nat) : List (List Doc) :=
  getAncestorsLoop g maxDepth [file] [file]

/-! ## Default-depth mode of getAncestors (claim about the missing method)

When `maxDepth` is not supplied, the source evaluates
`this.graph.getMaxDepth()`.  JS property lookup on the RelationGraph
instance finds a method by name; an absent name yields `undefined` and the
call raises a TypeError.  The embedding lists the method names the class
declares (read off relation-graph.ts) and models the fallible dispatch. -/

/-- Method names defined by class RelationGraph in src/src/relation-graph.ts. -/
def relationGraphMethods : List String :=
  ["constructor", "build", "extractParentLinks", "resolveLink",
   "getParents", "getChildren", "getAllFiles", "detectCycle",
   "getCycleInfo", "hasCycles"]

/-- `getAncestors(file)` with the depth argument omitted:
`const depth = maxDepth ?? this.graph.getMaxDepth();` — the call throws a
TypeError unless the graph class defines `getMaxDepth`.  (The ok branch is
dead for this class; were the method present it would supply the depth.) -/
def getAncestorsDefault (g : Graph) (file : Doc) : Except String (List (List Doc)) :=
  if relationGraphMethods.contains "getMaxDepth" then
    Except.ok (getAncestors g file 0)
  else
    Except.error "TypeError: this.graph.getMaxDepth is not a function"

/-! ## Cycle detector (cycle-detector.ts)

Three-color DFS over parent edges.  The `Map<string, NodeState>` with its
`states.get(p) || WHITE` default is a total function from documents to
states; recursion is embedded with explicit fuel (`none` = fuel ran out),
and the termination claim proves a concrete fuel that never runs out. -/

/-- Node states of the three-color algorithm. -/
inductive NodeState where
  | white
  | gray
  | black
deriving Repr, DecidableEq

/-- The states map, with absent keys reading as WHITE. -/
abbrev States := Doc → NodeState

/-- `states.set(p, s)`. -/
def setState (st : States) (p : Doc) (s : NodeState) : States :=
  fun d => if d = p then s else st d

/-- Fresh states map of a detection run. -/
def initStates : States := fun _ => NodeState.white

/-- Cycle query result (interface CycleInfo). -/
structure CycleInfo where
  cyclePath : List Doc
  startFile : Doc
  description : String
  length : Nat
deriving Repr, DecidableEq

/-- CycleDetector.buildCycleInfo.  JS `findIndex` yields -1 when the start
is absent from the path, and `slice(-1)` then keeps just the last element;
`path.drop (path.length - 1)` covers both the found-at-i and the absent
case through the match. -/
def buildCycleInfo (cycleStart : Doc) (path : List Doc) : CycleInfo :=
  let cyclePath :=
    match path.findIdx? (fun f => f == cycleStart) with
    | some i => path.drop i ++ [cycleStart]
    | none => path.drop (path.length - 1) ++ [cycleStart]
  { cyclePath := cyclePath
    startFile := path.headD cycleStart
    description := "Cycle detected: " ++ String.intercalate " → " cyclePath
    length := cyclePath.length - 1 }

/-- The `for (const parent of parents)` loop inside CycleDetector.dfs,
abstracted over the recursive call into dfs (instantiated below with one
unit less fuel, which keeps the recursion structural and computable). -/
def dfsParentsGo
    (rec : Doc → States → List Doc → Option (Option CycleInfo × States × List Doc)) :
    List Doc → States → List Doc → Option (Option CycleInfo × States × List Doc)
  | [], st, p => some (none, st, p)
  | parent :: rest, st, p =>
    match st parent with
    | NodeState.gray => some (some (buildCycleInfo parent p), st, p)
    | NodeState.black => dfsParentsGo rec rest st p
    | NodeState.white =>
      match rec parent st p with
      | none => none
      | some (some ci, st2, p2) => some (some ci, st2, p2)
      | some (none, st2, p2) => dfsParentsGo rec rest st2 p2

/-- CycleDetector.dfs: mark the current node GRAY, push it on the path,
scan its parents, and on a clean scan mark it BLACK and pop.  `none` means
the fuel ran out. -/
def dfsCD (g : Graph) : Nat → Doc → States → List Doc →
    Option (Option CycleInfo × States × List Doc)
  | 0, _, _, _ => none
  | fuel + 1, current, states, path =>
    let states1 := setState states current NodeState.gray
    let path1 := path ++ [current]
    match dfsParentsGo (fun p st pa => dfsCD g fuel p st pa)
        (getParents g current) states1 path1 with
    | none => none
    | some (some ci, st, p) => some (some ci, st, p)
    | some (none, st, p) => some (none, setState st current NodeState.black, p.dropLast)

/-- Every parent reference stored in the graph. -/
def parentsUniverse (g : Graph) : List Doc :=
  (g.map (fun e => e.2.parents)).flatten

/-- Every child reference stored in the graph. -/
def childrenUniverse (g : Graph) : List Doc :=
  (g.map (fun e => e.2.children)).flatten

/-- Every document a traversal started at `start` can ever stand on: the
start plus every key, parent reference and child reference of the graph. -/
def docUniverse (g : Graph) (start : Doc) : List Doc :=
  start :: graphKeys g ++ parentsUniverse g ++ childrenUniverse g

/-- Fuel that claim C4 proves sufficient for the cycle DFS. -/
def cdFuel (g : Graph) (start : Doc) : Nat :=
  (docUniverse g start).length + 1

/-- CycleDetector.detectCycle: fresh states, fresh path, one DFS. -/
def detectCycle (g : Graph) (startFile : Doc) : Option CycleInfo :=
  match dfsCD g (cdFuel g startFile) startFile initStates [] with
  | some (ci, _, _) => ci
  | none => none

/-- The `for (const file of allFiles)` loop of CycleDetector.hasCycles:
states persist across the per-file DFS runs; `none` = a DFS ran out of fuel. -/
def hasCyclesLoop (g : Graph) : List Doc → States → Option Bool
  | [], _ => some false
  | f :: rest, states =>
    match states f with
    | NodeState.white =>
      match dfsCD g (cdFuel g f) f states [] with
      | none => none
      | some (some _, _, _) => some true
      | some (none, st, _) => hasCyclesLoop g rest st
    | _ => hasCyclesLoop g rest states

/-- CycleDetector.hasCycles.  The fuel bound is proven sufficient, so the
`getD false` default is never consulted. -/
def hasCycles (g : Graph) : Bool :=
  (hasCyclesLoop g (getAllFiles g) initStates).getD false

/-! ## Path finder (utils/path-finder.ts) -/

/-- Direction annotation of a path. -/
inductive Direction where
  | up
  | down
  | mixed
deriving Repr, DecidableEq

/-- Result record of the path finder (interface NotePath); the `end` field
is spelled `endDoc` because `end` is a Lean keyword. -/
structure NotePath where
  start : Doc
  endDoc : Doc
  path : List Doc
  length : Nat
  direction : Direction
deriving Repr, DecidableEq

/-- One neighbor loop of findShortestPath (run once for parents, once for
children): return the full path as soon as the neighbor is the target,
otherwise enqueue the unvisited neighbors in order.  The state is
`(queue-so-far, visited)`. -/
def scanNeighbors (endDoc : Doc) (path : List Doc) :
    List Doc → List (Doc × List Doc) → List Doc →
    (List Doc) ⊕ (List (Doc × List Doc) × List Doc)
  | [], queue, visited => Sum.inr (queue, visited)
  | n :: rest, queue, visited =>
    if n = endDoc then Sum.inl (path ++ [n])
    else if visited.contains n then scanNeighbors endDoc path rest queue visited
    else scanNeighbors endDoc path rest (queue ++ [(n, path ++ [n])]) (visited ++ [n])

/-- The BFS `while (queue.length > 0)` loop of findShortestPath, with fuel;
`none` = fuel ran out, `some none` = queue exhausted with no path. -/
def bfsSP (g : Graph) (start endDoc : Doc) :
    Nat → List (Doc × List Doc) → List Doc → Option (Option NotePath)
  | 0, _, _ => none
  | fuel + 1, queue, visited =>
    match queue with
    | [] => some none
    | (node, path) :: rest =>
      match scanNeighbors endDoc path (getParents g node) rest visited with
      | Sum.inl fullPath =>
        some (some ⟨start, endDoc, fullPath, fullPath.length - 1, Direction.up⟩)
      | Sum.inr (q1, v1) =>
        match scanNeighbors endDoc path (getChildren g node) q1 v1 with
        | Sum.inl fullPath =>
          some (some ⟨start, endDoc, fullPath, fullPath.length - 1, Direction.down⟩)
        | Sum.inr (q2, v2) => bfsSP g start endDoc fuel q2 v2

/-- Fuel that claim C4 proves sufficient for the shortest-path BFS. -/
def spFuel (g : Graph) (start : Doc) : Nat :=
  (docUniverse g start).length + 2

/-- findShortestPath: early exit on `start == end`, else BFS over parents
and children. -/
def findShortestPath (g : Graph) (start endDoc : Doc) : Option NotePath :=
  if start = endDoc then
    some ⟨start, endDoc, [start], 0, Direction.mixed⟩
  else
    match bfsSP g start endDoc (spFuel g start) [(start, [start])] [start] with
    | some r => r
    | none => none

/-- determineDirection: scan every consecutive pair of the path. -/
def determineDirection (g : Graph) (path : List Doc) : Direction :=
  if path.length < 2 then Direction.mixed
  else
    let pairs := path.zip path.tail
    let hasUp := pairs.any (fun cn => (getParents g cn.1).contains cn.2)
    let hasDown := pairs.any (fun cn => (getChildren g cn.1).contains cn.2)
    if hasUp && !hasDown then Direction.up
    else if hasDown && !hasUp then Direction.down
    else Direction.mixed

/-- The neighbor loops of the dfs helper of findAllPaths, abstracted over
the recursive call into dfs: try each unvisited neighbor in order and
concatenate the paths each branch records. -/
def dfsAPListGo (rec : Doc → List Doc → List Doc → Option (List NotePath)) :
    List Doc → List Doc → List Doc → Option (List NotePath)
  | [], _, _ => some []
  | n :: rest, path, visited =>
    if visited.contains n then dfsAPListGo rec rest path visited
    else
      match rec n (path ++ [n]) visited with
      | none => none
      | some here =>
        match dfsAPListGo rec rest path visited with
        | none => none
        | some later => some (here ++ later)

/-- The dfs helper of findAllPaths: prune when the node count exceeds
maxLength, record the path when the target is reached, else recurse into
the unvisited parents and children with a branch-local visited copy.
`none` means the fuel ran out. -/
def dfsAP (g : Graph) (startDoc endDoc : Doc) (maxLength : Nat) :
    Nat → Doc → List Doc → List Doc → Option (List NotePath)
  | 0, _, _, _ => none
  | fuel + 1, current, path, visited =>
    if path.length > maxLength then some []
    else if current = endDoc then
      some [⟨startDoc, endDoc, path, path.length - 1, determineDirection g path⟩]
    else
      let visited1 := visited ++ [current]
      match dfsAPListGo (fun n pa v => dfsAP g startDoc endDoc maxLength fuel n pa v)
          (getParents g current) path visited1 with
      | none => none
      | some fromParents =>
        match dfsAPListGo (fun n pa v => dfsAP g startDoc endDoc maxLength fuel n pa v)
            (getChildren g current) path visited1 with
        | none => none
        | some fromChildren => some (fromParents ++ fromChildren)

/-- Fuel that claim C4 proves sufficient for the all-paths DFS. -/
def apFuel (maxLength : Nat) : Nat :=
  maxLength + 2

/-- findAllPaths: bounded DFS from the start, results sorted by ascending
length.  JS `Array.prototype.sort` is a stable sort, and a stable sort of
a list under a total preorder is unique, so the stable
`List.insertionSort` embeds it. -/
def findAllPaths (g : Graph) (startDoc endDoc : Doc) (maxLength : Nat) : List NotePath :=
  match dfsAP g startDoc endDoc maxLength (apFuel maxLength) startDoc [startDoc] [] with
  | some paths => paths.insertionSort (fun a b => a.length ≤ b.length)
  | none => []

/-! ## Specification-side notions

The directed parent-edge relation, reachability and cycles along it, and
the undirected step relation the path finder explores.  These are the
mathematical vocabulary of the claims, not part of the embedded code. -/

/-- One parent edge: `b` is among the stored parents of `a`. -/
def parentEdge (g : Graph) (a b : Doc) : Prop :=
  b ∈ getParents g a

/-- Reachability along parent edges (zero or more steps). -/
def ReachP (g : Graph) : Doc → Doc → Prop :=
  Relation.ReflTransGen (parentEdge g)

/-- A document lying on a directed parent-edge cycle. -/
def OnCycle (g : Graph) (v : Doc) : Prop :=
  Relation.TransGen (parentEdge g) v v

/-- Some document on a cycle is reachable from `s` along parent edges. -/
def HasCycleFrom (g : Graph) (s : Doc) : Prop :=
  ∃ v, ReachP g s v ∧ OnCycle g v

/-- The graph contains a directed parent-edge cycle. -/
def GraphCyclic (g : Graph) : Prop :=
  ∃ v, OnCycle g v

/-- One undirected step of the path finder: a parent or a child edge. -/
def adjStep (g : Graph) (a b : Doc) : Prop :=
  b ∈ getParents g a ∨ b ∈ getChildren g a

/-- A walk of the undirected view: consecutive entries are adjacent. -/
def IsWalk (g : Graph) (p : List Doc) : Prop :=
  List.Chain' (adjStep g) p

/-- A walk from `s` to `e`: nonempty, with the stated endpoints.  Its edge
count is `p.length - 1`; minimising edge count over walks and over simple
paths is the same, since every walk contains a path between its endpoints
of no greater length. -/
def WalkFrom (g : Graph) (s e : Doc) (p : List Doc) : Prop :=
  IsWalk g p ∧ p.head? = some s ∧ p.getLast? = some e

/-! ## Invariant vocabulary used by the proofs -/

/-- Invariant of the generation fold state `(next, seen, visited)` of
getAncestors, relative to the visited list `v0` the level started from:
seen mirrors next, visited is `v0` extended by next, and next is
duplicate-free and disjoint from `v0`. -/
def GenInv (v0 : List Doc) (st : List Doc × List Doc × List Doc) : Prop :=
  st.2.1 = st.1 ∧ st.2.2 = v0 ++ st.1 ∧ st.1.Nodup ∧ ∀ x ∈ st.1, x ∉ v0

/-- States can only lose whiteness over a DFS run. -/
def StMono (s1 s2 : States) : Prop :=
  ∀ d, s2 d = NodeState.white → s1 d = NodeState.white

/-- Blacks survive a DFS run. -/
def BlackMono (s1 s2 : States) : Prop :=
  ∀ d, s1 d = NodeState.black → s2 d = NodeState.black

/-- Number of white documents of the carrier `S` (the DFS fuel measure). -/
def whites (S : List Doc) (st : States) : Nat :=
  S.dedup.countP (fun d => decide (st d = NodeState.white))

/-- Invariant tying a cycle-DFS state to its explicit path stack:
the stack is duplicate-free, the GRAY documents are exactly the stack
members, the stack is a parent-edge chain, and the BLACK documents are
closed under parent edges and can reach no cycle. -/
structure DfsInv (g : Graph) (st : States) (path : List Doc) : Prop where
  nodup : path.Nodup
  gray_iff : ∀ d, st d = NodeState.gray ↔ d ∈ path
  chain : path.Chain' (parentEdge g)
  black_closed : ∀ d, st d = NodeState.black →
    ∀ p ∈ getParents g d, st p = NodeState.black
  black_no_cycle : ∀ d, st d = NodeState.black → ¬ HasCycleFrom g d

/-- What a cycle result of the DFS guarantees: the graph really has a
directed parent-edge cycle, and the reported CycleInfo closes on itself
with its length field one less than its path length. -/
def CyclePost (g : Graph) (ci : CycleInfo) : Prop :=
  GraphCyclic g ∧
  (∃ v, ci.cyclePath.head? = some v ∧ ci.cyclePath.getLast? = some v) ∧
  ci.length = ci.cyclePath.length - 1

/-- Invariant of the shortest-path BFS loop, for a search from `s` towards
`e`: every queue entry carries a genuine walk from `s` ending at its
visited, non-target node; queue path lengths are sorted and spread at most
one apart; the target was never visited; every visited document no longer
in the queue has been fully expanded (all its neighbors are visited and
none is the target); and every walk from `s` to `e` still crosses the
queue economically. -/
def QueueOK (g : Graph) (s e : Doc) (q : List (Doc × List Doc)) (v : List Doc) : Prop :=
  (∀ ent ∈ q, (WalkFrom g s ent.1 ent.2 ∧ ent.1 ≠ e) ∧ ent.1 ∈ v) ∧
  List.Pairwise (fun a b => a ≤ b) (q.map (fun ent => ent.2.length)) ∧
  (∀ x ∈ q.map (fun ent => ent.2.length), ∀ y ∈ q.map (fun ent => ent.2.length),
    x ≤ y + 1) ∧
  e ∉ v ∧
  (∀ w ∈ v, w ∉ q.map Prod.fst → ∀ x, adjStep g w x → x ∈ v ∧ x ≠ e) ∧
  (∀ rq, WalkFrom g s e rq → ∃ ent ∈ q, ∃ r2, WalkFrom g ent.1 e r2 ∧
    ent.2.length + r2.length ≤ rq.length + 1)

/-! ## Concrete graphs used by the claims -/

/-- Chain corpus: a has parent b, b has parent c, c has parent d. -/
def chainG : Graph :=
  [("a", ⟨"a", ["b"], []⟩), ("b", ⟨"b", ["c"], ["a"]⟩),
   ("c", ⟨"c", ["d"], ["b"]⟩), ("d", ⟨"d", [], ["c"]⟩)]

/-- Diamond corpus: a has parents b and c; both b and c have parent d. -/
def diamondG : Graph :=
  [("a", ⟨"a", ["b", "c"], []⟩), ("b", ⟨"b", ["d"], ["a"]⟩),
   ("c", ⟨"c", ["d"], ["a"]⟩), ("d", ⟨"d", [], ["b", "c"]⟩)]

/-- One document that is its own parent. -/
def selfG : Graph :=
  [("a", ⟨"a", ["a"], ["a"]⟩)]

/-- Two documents joined by a single parent edge: a has parent b. -/
def edgeG : Graph :=
  [("a", ⟨"a", ["b"], []⟩), ("b", ⟨"b", [], ["a"]⟩)]

/-- A document whose parents list holds another document before itself,
where that other document is a self-loop: d has parents c and d, c has
parent c. -/
def earlyCycleG : Graph :=
  [("d", ⟨"d", ["c", "d"], ["d"]⟩), ("c", ⟨"c", ["c"], ["c", "d"]⟩)]

/-- Scan result of a corpus in which document a declares parent p twice. -/
def dupInput : List (Doc × List Doc) :=
  [("a", ["p", "p"]), ("p", [])]

/-- Number of distinct members of the carrier `S` not yet in the visited
list `v` (the BFS fuel measure). -/
def unvisCount (S v : List Doc) : Nat :=
  S.dedup.countP (fun x => decide (x ∉ v))

/-- Number of distinct parent references not yet visited: the measure that
bounds how many generation-loop iterations can still emit something. -/
def ancMeasure (g : Graph) (v : List Doc) : Nat :=
  (parentsUniverse g).dedup.countP (fun x => decide (x ∉ v))

/-- Upper bound on the number of generation-loop iterations that can emit
a nonempty generation. -/
def ancBound (g : Graph) : Nat :=
  (parentsUniverse g).length + 1

/-! ## Lookup lemmas -/

lemma lookupNode_eq_none {g : Graph} {p : Doc} (h : p ∉ graphKeys g) :
    lookupNode g p = none := by
  have hf : g.find? (fun e => e.1 == p) = none := by
    apply List.find?_eq_none.mpr
    intro e he
    simp only [beq_iff_eq]
    intro hep
    exact h (by simpa [graphKeys, hep] using List.mem_map_of_mem (fun e => e.1) he)
  simp [lookupNode, hf]

lemma lookupNode_mem {g : Graph} {d : Doc} {n : NodeInfo}
    (h : lookupNode g d = some n) : ∃ e ∈ g, e.2 = n ∧ e.1 = d := by
  unfold lookupNode at h
  cases hf : g.find? (fun e => e.1 == d) with
  | none => rw [hf] at h; simp at h
  | some e =>
    rw [hf] at h
    simp only [Option.map_some', Option.some.injEq] at h
    refine ⟨e, List.mem_of_find?_eq_some hf, h, ?_⟩
    simpa using List.find?_some hf

lemma getParents_of_not_mem {g : Graph} {p : Doc} (h : p ∉ graphKeys g) :
    getParents g p = [] := by
  simp [getParents, lookupNode_eq_none h]

lemma getChildren_of_not_mem {g : Graph} {p : Doc} (h : p ∉ graphKeys g) :
    getChildren g p = [] := by
  simp [getChildren, lookupNode_eq_none h]

lemma getParents_mem_universe {g : Graph} {d x : Doc}
    (hx : x ∈ getParents g d) : x ∈ parentsUniverse g := by
  unfold getParents at hx
  cases hlk : lookupNode g d with
  | none => simp [hlk] at hx
  | some n =>
    rw [hlk] at hx
    obtain ⟨e, he, hn, -⟩ := lookupNode_mem hlk
    unfold parentsUniverse
    rw [List.mem_flatten]
    exact ⟨e.2.parents, List.mem_map_of_mem _ he, by rw [hn]; exact hx⟩

lemma getChildren_mem_universe {g : Graph} {d x : Doc}
    (hx : x ∈ getChildren g d) : x ∈ childrenUniverse g := by
  unfold getChildren at hx
  cases hlk : lookupNode g d with
  | none => simp [hlk] at hx
  | some n =>
    rw [hlk] at hx
    obtain ⟨e, he, hn, -⟩ := lookupNode_mem hlk
    unfold childrenUniverse
    rw [List.mem_flatten]
    exact ⟨e.2.children, List.mem_map_of_mem _ he, by rw [hn]; exact hx⟩

lemma mem_graphKeys_of_getParents_ne {g : Graph} {d : Doc}
    (h : getParents g d ≠ []) : d ∈ graphKeys g := by
  by_contra hd
  exact h (getParents_of_not_mem hd)

/-! ## getAncestors: the generation fold -/

lemma genVisit_eq_of_mem_visited {st : List Doc × List Doc × List Doc} {p : Doc}
    (hv : p ∈ st.2.2) : genVisit st p = st := by
  unfold genVisit
  simp [hv]

lemma genVisit_eq_of_mem_seen {st : List Doc × List Doc × List Doc} {p : Doc}
    (hv : p ∉ st.2.2) (hs : p ∈ st.2.1) : genVisit st p = st := by
  unfold genVisit
  simp [hv, hs]

lemma genVisit_eq_add {st : List Doc × List Doc × List Doc} {p : Doc}
    (hv : p ∉ st.2.2) (hs : p ∉ st.2.1) :
    genVisit st p = (st.1 ++ [p], st.2.1 ++ [p], st.2.2 ++ [p]) := by
  unfold genVisit
  simp [hv, hs]

lemma genVisit_inv {v0 : List Doc} {st : List Doc × List Doc × List Doc} {p : Doc}
    (h : GenInv v0 st) : GenInv v0 (genVisit st p) := by
  obtain ⟨h1, h2, h3, h4⟩ := h
  by_cases hv : p ∈ st.2.2
  · rw [genVisit_eq_of_mem_visited hv]
    exact ⟨h1, h2, h3, h4⟩
  · by_cases hs : p ∈ st.2.1
    · rw [genVisit_eq_of_mem_seen hv hs]
      exact ⟨h1, h2, h3, h4⟩
    · rw [genVisit_eq_add hv hs]
      rw [h2, List.mem_append, not_or] at hv
      refine ⟨by rw [h1], by rw [h2, List.append_assoc], ?_, ?_⟩
      · simp only [List.nodup_append, List.nodup_singleton, true_and]
        exact ⟨h3, by simpa using hv.2⟩
      · intro x hx
        rcases List.mem_append.mp hx with hx | hx
        · exact h4 x hx
        · simp only [List.mem_singleton] at hx
          subst hx
          exact hv.1

lemma foldl_genVisit_inv {v0 : List Doc} (l : List Doc)
    {st : List Doc × List Doc × List Doc} (h : GenInv v0 st) :
    GenInv v0 (List.foldl genVisit st l) := by
  induction l generalizing st with
  | nil => exact h
  | cons a t ih => exact ih (genVisit_inv h)

lemma genStep_inv (g : Graph) (v0 cur : List Doc) :
    GenInv v0 (genStep g v0 cur) := by
  unfold genStep
  suffices h : ∀ (l : List Doc) st, GenInv v0 st →
      GenInv v0 (List.foldl (fun st current => (getParents g current).foldl genVisit st) st l) by
    exact h cur ([], [], v0) ⟨rfl, by simp, List.nodup_nil, by simp⟩
  intro l
  induction l with
  | nil => intro st h; exact h
  | cons a t ih => intro st h; exact ih _ (foldl_genVisit_inv _ h)

lemma genVisit_fst (st : List Doc × List Doc × List Doc) (p : Doc) :
    (genVisit st p).1 = st.1 ∨ (genVisit st p).1 = st.1 ++ [p] := by
  by_cases hv : p ∈ st.2.2
  · rw [genVisit_eq_of_mem_visited hv]
    exact Or.inl rfl
  · by_cases hs : p ∈ st.2.1
    · rw [genVisit_eq_of_mem_seen hv hs]
      exact Or.inl rfl
    · rw [genVisit_eq_add hv hs]
      exact Or.inr rfl

lemma foldl_genVisit_subset {P : Doc → Prop} :
    ∀ (l : List Doc) (st : List Doc × List Doc × List Doc),
      (∀ x ∈ st.1, P x) → (∀ x ∈ l, P x) →
      ∀ x ∈ (List.foldl genVisit st l).1, P x := by
  intro l
  induction l with
  | nil => intro st hst _; exact hst
  | cons a t ih =>
    intro st hst hl
    simp only [List.foldl_cons]
    refine ih _ ?_ (fun y hy => hl y (List.mem_cons_of_mem a hy))
    intro y hy
    rcases genVisit_fst st a with hcase | hcase
    · exact hst y (hcase ▸ hy)
    · rw [hcase] at hy
      rcases List.mem_append.mp hy with hy | hy
      · exact hst y hy
      · simp only [List.mem_singleton] at hy
        rw [hy]
        exact hl a (List.mem_cons_self a t)

lemma genStep_subset (g : Graph) (v0 cur : List Doc) :
    ∀ x ∈ (genStep g v0 cur).1, x ∈ parentsUniverse g := by
  unfold genStep
  suffices h : ∀ (l : List Doc) st, (∀ x ∈ st.1, x ∈ parentsUniverse g) →
      ∀ x ∈ (List.foldl (fun st current => (getParents g current).foldl genVisit st) st l).1,
        x ∈ parentsUniverse g by
    exact h cur ([], [], v0) (by simp)
  intro l
  induction l with
  | nil => intro st h; exact h
  | cons a t ih =>
    intro st h
    exact ih _ (foldl_genVisit_subset _ _ h (fun x hx => getParents_mem_universe hx))

/-! ## getAncestors: loop-level lemmas -/

lemma getAncestorsLoop_nodup (g : Graph) :
    ∀ (d : Nat) (v0 cur : List Doc), v0.Nodup →
      (getAncestorsLoop g d v0 cur).flatten.Nodup ∧
      ∀ x ∈ (getAncestorsLoop g d v0 cur).flatten, x ∉ v0 := by
  intro d
  induction d with
  | zero => simp [getAncestorsLoop]
  | succ n ih =>
    intro v0 cur hv0
    rw [getAncestorsLoop]
    obtain ⟨h1, h2, h3, h4⟩ := genStep_inv g v0 cur
    by_cases he : (genStep g v0 cur).1.isEmpty
    · simp [he]
    · simp only [he, Bool.false_eq_true, if_false, List.flatten_cons]
      have hv0' : (v0 ++ (genStep g v0 cur).1).Nodup := by
        rw [List.nodup_append]
        exact ⟨hv0, h3, fun x hx hx' => h4 x hx' hx⟩
      obtain ⟨ihn, ihm⟩ := ih (v0 ++ (genStep g v0 cur).1) (genStep g v0 cur).1
        (by rw [← h2]; rw [h2]; exact hv0')
      rw [← h2] at ihn ihm
      constructor
      · rw [List.nodup_append]
        refine ⟨h3, ihn, ?_⟩
        intro x hx hx'
        have := ihm x hx'
        rw [h2] at this
        exact this (List.mem_append.mpr (Or.inr hx))
      · intro x hx
        rcases List.mem_append.mp hx with hx | hx
        · exact h4 x hx
        · have := ihm x hx
          rw [h2] at this
          exact fun hv => this (List.mem_append.mpr (Or.inl hv))

lemma getAncestors_flatten (g : Graph) (f : Doc) (d : Nat) :
    (getAncestors g f d).flatten.Nodup ∧ f ∉ (getAncestors g f d).flatten := by
  obtain ⟨h1, h2⟩ := getAncestorsLoop_nodup g d [f] [f] (List.nodup_singleton f)
  exact ⟨h1, fun hf => h2 f hf (List.mem_singleton_self f)⟩

/-! ## Counting helpers -/

lemma countP_lt_of_witness {α : Type} {l : List α} {p q : α → Bool}
    (himp : ∀ x ∈ l, p x = true → q x = true) :
    ∀ {a : α}, a ∈ l → q a = true → p a = false → l.countP p < l.countP q := by
  induction l with
  | nil => intro a ha; simp at ha
  | cons b t ih =>
    intro a ha hqa hpa
    rw [List.countP_cons, List.countP_cons]
    have hmono : t.countP p ≤ t.countP q :=
      List.countP_mono_left (fun x hx hpx => himp x (List.mem_cons_of_mem b hx) hpx)
    rcases List.mem_cons.mp ha with rfl | hat
    · rw [hpa, hqa]
      simp only [Bool.false_eq_true, if_false, if_true]
      omega
    · have hlt := ih (fun x hx hpx => himp x (List.mem_cons_of_mem b hx) hpx) hat hqa hpa
      have hb : (if p b = true then 1 else 0) ≤ (if q b = true then 1 else 0) := by
        by_cases hpb : p b = true
        · rw [if_pos hpb, if_pos (himp b (List.mem_cons_self b t) hpb)]
        · rw [if_neg hpb]
          omega
      omega

/-! ## getAncestors: stabilization (termination content of the claim) -/

lemma ancMeasure_append_lt (g : Graph) (v next : List Doc)
    (hsub : ∀ x ∈ next, x ∈ parentsUniverse g)
    (hdis : ∀ x ∈ next, x ∉ v) (hne : next ≠ []) :
    ancMeasure g (v ++ next) < ancMeasure g v := by
  obtain ⟨x, hx⟩ := List.exists_mem_of_ne_nil next hne
  unfold ancMeasure
  refine countP_lt_of_witness ?_ (List.mem_dedup.mpr (hsub x hx)) ?_ ?_
  · intro y hy
    simp only [decide_eq_true_eq]
    intro hnv hyv
    exact hnv (List.mem_append.mpr (Or.inl hyv))
  · simpa using hdis x hx
  · simp only [decide_eq_false_iff_not, not_not]
    exact List.mem_append.mpr (Or.inr hx)

lemma ancMeasure_le_bound (g : Graph) (v : List Doc) :
    ancMeasure g v < ancBound g := by
  unfold ancMeasure ancBound
  have h1 : (parentsUniverse g).dedup.countP (fun x => decide (x ∉ v)) ≤
      (parentsUniverse g).dedup.length := List.countP_le_length _
  have h2 : (parentsUniverse g).dedup.length ≤ (parentsUniverse g).length :=
    List.Sublist.length_le (List.dedup_sublist _)
  omega

lemma getAncestorsLoop_of_measure_zero (g : Graph) {v : List Doc}
    (h : ancMeasure g v = 0) (d : Nat) (cur : List Doc) :
    getAncestorsLoop g d v cur = [] := by
  cases d with
  | zero => rfl
  | succ n =>
    rw [getAncestorsLoop]
    have hne : (genStep g v cur).1 = [] := by
      by_contra hne
      obtain ⟨x, hx⟩ := List.exists_mem_of_ne_nil _ hne
      have hxu : x ∈ (parentsUniverse g).dedup :=
        List.mem_dedup.mpr (genStep_subset g v cur x hx)
      have hxv : x ∉ v := (genStep_inv g v cur).2.2.2 x hx
      have hpos : 0 < ancMeasure g v := by
        unfold ancMeasure
        rw [List.countP_pos_iff]
        exact ⟨x, hxu, by simpa using hxv⟩
      omega
    simp [hne]

lemma getAncestorsLoop_stable (g : Graph) :
    ∀ (m : Nat) (v cur : List Doc) (d1 d2 : Nat), ancMeasure g v ≤ m →
      ancMeasure g v ≤ d1 → ancMeasure g v ≤ d2 →
      getAncestorsLoop g d1 v cur = getAncestorsLoop g d2 v cur := by
  intro m
  induction m with
  | zero =>
    intro v cur d1 d2 hm _ _
    have h0 : ancMeasure g v = 0 := Nat.le_zero.mp hm
    rw [getAncestorsLoop_of_measure_zero g h0, getAncestorsLoop_of_measure_zero g h0]
  | succ m ih =>
    intro v cur d1 d2 hm hd1 hd2
    by_cases h0 : ancMeasure g v = 0
    · rw [getAncestorsLoop_of_measure_zero g h0, getAncestorsLoop_of_measure_zero g h0]
    · cases d1 with
      | zero => omega
      | succ e1 =>
        cases d2 with
        | zero => omega
        | succ e2 =>
          rw [getAncestorsLoop, getAncestorsLoop]
          by_cases he : (genStep g v cur).1.isEmpty
          · simp [he]
          · simp only [he, Bool.false_eq_true, if_false, List.cons.injEq, true_and]
            obtain ⟨-, h2, -, h4⟩ := genStep_inv g v cur
            have hne : (genStep g v cur).1 ≠ [] := by
              intro hc
              rw [hc] at he
              exact he rfl
            have hlt : ancMeasure g (genStep g v cur).2.2 < ancMeasure g v := by
              rw [h2]
              exact ancMeasure_append_lt g v _ (genStep_subset g v cur) h4 hne
            exact ih (genStep g v cur).2.2 (genStep g v cur).1 e1 e2
              (by omega) (by omega) (by omega)

lemma getAncestors_stable (g : Graph) (f : Doc) (d : Nat)
    (hd : ancBound g ≤ d) :
    getAncestors g f d = getAncestors g f (ancBound g) := by
  unfold getAncestors
  have hm := ancMeasure_le_bound g [f]
  exact getAncestorsLoop_stable g (ancMeasure g [f]) [f] [f] d (ancBound g)
    le_rfl (by omega) (by omega)

/-! ## Small evaluation lemmas for the cycle DFS -/

lemma dfsCD_no_parents {g : Graph} {doc : Doc} (h : getParents g doc = [])
    (fuel : Nat) (st : States) (path : List Doc) :
    dfsCD g (fuel + 1) doc st path =
      some (none, setState (setState st doc NodeState.gray) doc NodeState.black, path) := by
  rw [dfsCD, h]
  simp [dfsParentsGo, List.dropLast_concat]

/-! ## Claim C2 (self-loop behaviour of getAncestors) -/

/-- C2, counterexample: for the one-document corpus in which `a` is its own
parent, `getAncestors(a, 1)` is `[]` — there is no generation at all, so in
particular the claimed single generation `[[a]]` does not exist. -/
theorem c2_self_parent_counterexample :
    getAncestors selfG "a" 1 = [] ∧ getAncestors selfG "a" 1 ≠ [["a"]] := by
  decide

/-- C2, amended: for a document that is its own parent the self-referencing
edge is absorbed by the seeded visited set, so the document never appears in
any generation of its own ancestor query; when the self-edge is its only
parent edge, the result is `[]` for every depth. -/
theorem c2_self_parent_amended :
    (∀ (g : Graph) (doc : Doc) (d : Nat), doc ∈ getParents g doc →
      ∀ gen ∈ getAncestors g doc d, doc ∉ gen) ∧
    (∀ (g : Graph) (doc : Doc) (d : Nat), getParents g doc = [doc] →
      getAncestors g doc d = []) := by
  constructor
  · intro g doc d _ gen hgen hmem
    exact (getAncestors_flatten g doc d).2 (List.mem_flatten.mpr ⟨gen, hgen, hmem⟩)
  · intro g doc d h
    cases d with
    | zero => rfl
    | succ n =>
      have hstep : genStep g [doc] [doc] = ([], [], [doc]) := by
        unfold genStep
        simp only [List.foldl_cons, List.foldl_nil, h]
        exact genVisit_eq_of_mem_visited (by simp)
      rw [getAncestors, getAncestorsLoop]
      simp [hstep]

/-- C2, witness for the amended theorem at the self-loop corpus. -/
theorem c2_self_parent_amended_witness :
    (∀ gen ∈ getAncestors selfG "a" 2, "a" ∉ gen) ∧ getAncestors selfG "a" 2 = [] :=
  ⟨c2_self_parent_amended.1 selfG "a" 2 (by decide),
   c2_self_parent_amended.2 selfG "a" 2 (by decide)⟩

/-! ## Claim C7 (generation deduplication) -/

/-- C7: on the diamond (a with parents b, c; both with parent d),
`getAncestors(a, 2) = [[b, c], [d]]`; and over any graph, any start and any
depth, the generations are globally duplicate-free (each document occurs in
at most one generation and at most once there) and never contain the start. -/
theorem c7_generation_dedup :
    getAncestors diamondG "a" 2 = [["b", "c"], ["d"]] ∧
    ∀ (g : Graph) (file : Doc) (d : Nat),
      (getAncestors g file d).flatten.Nodup ∧
      file ∉ (getAncestors g file d).flatten := by
  exact ⟨by decide, fun g file d => getAncestors_flatten g file d⟩

/-! ## Claim C6 (default-depth mode calls an undefined method) -/

/-- C6: RelationGraph declares no `getMaxDepth`, so calling getAncestors
without a maxDepth argument evaluates `this.graph.getMaxDepth()` and raises
a TypeError instead of returning generations, for every graph and file. -/
theorem c6_default_depth_type_error :
    ∀ (g : Graph) (file : Doc),
      getAncestorsDefault g file =
        Except.error "TypeError: this.graph.getMaxDepth is not a function" := by
  intro g file
  rfl

/-! ## Claim C1 (findAllPaths bound is off by one: code bug evaluation) -/

/-- C1: the guard `path.length > maxLength` compares the node count of the
path array against maxLength, although `length` of a NotePath is documented
as its edge count.  On the corpus in which a has parent b, the one-edge
simple path [a, b] lies within `maxLength = 1` edges, yet
`findAllPaths(a, b, 1)` is `[]`; the same call with `maxLength = 2` does
return exactly that path. -/
theorem c1_max_length_off_by_one :
    findAllPaths edgeG "a" "b" 1 = [] ∧
    WalkFrom edgeG "a" "b" ["a", "b"] ∧ (["a", "b"] : List Doc).Nodup ∧
    findAllPaths edgeG "a" "b" 2 = [⟨"a", "b", ["a", "b"], 1, Direction.up⟩] := by
  refine ⟨by decide, ⟨?_, by decide, by decide⟩, by decide, by decide⟩
  unfold IsWalk
  rw [List.chain'_cons]
  refine ⟨Or.inl (by decide), by simp⟩

/-! ## Claim C10 (absent documents are inert) -/

/-- C10: a document absent from the graph map has empty parents and
children, and detectCycle on it returns null; none of the three queries
can fail on an absent key. -/
theorem c10_absent_document_inert :
    ∀ (g : Graph) (doc : Doc), doc ∉ graphKeys g →
      getParents g doc = [] ∧ getChildren g doc = [] ∧ detectCycle g doc = none := by
  intro g doc h
  refine ⟨getParents_of_not_mem h, getChildren_of_not_mem h, ?_⟩
  rw [detectCycle]
  rw [show cdFuel g doc = (docUniverse g doc).length + 1 from rfl]
  rw [dfsCD_no_parents (getParents_of_not_mem h)]

/-- C10, witness at a concrete corpus and absent key. -/
theorem c10_absent_document_inert_witness :
    getParents chainG "zz" = [] ∧ getChildren chainG "zz" = [] ∧
    detectCycle chainG "zz" = none :=
  c10_absent_document_inert chainG "zz" (by decide)

/-! ## States bookkeeping -/

lemma setState_same (st : States) (p : Doc) (s : NodeState) :
    setState st p s p = s := by
  simp [setState]

lemma setState_other {st : States} {p d : Doc} (s : NodeState) (h : d ≠ p) :
    setState st p s d = st d := by
  simp [setState, h]

lemma stMono_refl (st : States) : StMono st st :=
  fun _ h => h

lemma stMono_trans {s1 s2 s3 : States} (h1 : StMono s1 s2) (h2 : StMono s2 s3) :
    StMono s1 s3 :=
  fun d h => h1 d (h2 d h)

lemma stMono_setState_of_ne_white {st : States} {p : Doc} {s : NodeState}
    (hs : s ≠ NodeState.white) : StMono st (setState st p s) := by
  intro d hd
  by_cases hdp : d = p
  · subst hdp
    rw [setState_same] at hd
    exact absurd hd hs
  · rwa [setState_other s hdp] at hd

lemma whites_le_of_mono {S : List Doc} {s1 s2 : States} (h : StMono s1 s2) :
    whites S s2 ≤ whites S s1 := by
  unfold whites
  refine List.countP_mono_left ?_
  intro x _ hx
  simp only [decide_eq_true_eq] at hx ⊢
  exact h x hx

lemma whites_lt_of_flip {S : List Doc} {s1 s2 : States} (h : StMono s1 s2)
    {d : Doc} (hd : d ∈ S) (h1 : s1 d = NodeState.white)
    (h2 : s2 d ≠ NodeState.white) : whites S s2 < whites S s1 := by
  unfold whites
  refine countP_lt_of_witness ?_ (List.mem_dedup.mpr hd) ?_ ?_
  · intro x _ hx
    simp only [decide_eq_true_eq] at hx ⊢
    exact h x hx
  · simpa using h1
  · simpa using h2

/-! ## Cycle DFS: the fuel bound is sufficient -/

lemma dfsParentsGo_isSome (g : Graph) (S : List Doc) (fuel : Nat)
    (ih : ∀ (current : Doc) (st : States) (path : List Doc),
      st current = NodeState.white → current ∈ S → whites S st < fuel →
      ∃ r, dfsCD g fuel current st path = some r ∧ StMono st r.2.1 ∧
        r.2.1 current ≠ NodeState.white) :
    ∀ (l : List Doc) (st : States) (path : List Doc),
      (∀ x ∈ l, x ∈ S) → whites S st < fuel →
      ∃ r, dfsParentsGo (fun p st pa => dfsCD g fuel p st pa) l st path = some r ∧
        StMono st r.2.1 ∧ whites S r.2.1 ≤ whites S st := by
  intro l
  induction l with
  | nil =>
    intro st path _ _
    exact ⟨(none, st, path), rfl, stMono_refl st, le_rfl⟩
  | cons parent rest ihl =>
    intro st path hmem hlt
    rw [dfsParentsGo]
    cases hst : st parent with
    | gray =>
      exact ⟨(some (buildCycleInfo parent path), st, path), rfl, stMono_refl st, le_rfl⟩
    | black =>
      obtain ⟨r, hr, hm, hw⟩ :=
        ihl st path (fun x hx => hmem x (List.mem_cons_of_mem parent hx)) hlt
      exact ⟨r, hr, hm, hw⟩
    | white =>
      obtain ⟨r1, hr1, hm1, hnw1⟩ := ih parent st path hst
        (hmem parent (List.mem_cons_self parent rest)) hlt
      obtain ⟨ci1, st1, p1⟩ := r1
      rw [hr1]
      have hwlt1 : whites S st1 < whites S st :=
        whites_lt_of_flip hm1 (hmem parent (List.mem_cons_self parent rest)) hst hnw1
      cases ci1 with
      | some ci =>
        exact ⟨(some ci, st1, p1), rfl, hm1, le_of_lt hwlt1⟩
      | none =>
        obtain ⟨r2, hr2, hm2, hw2⟩ := ihl st1 p1
          (fun x hx => hmem x (List.mem_cons_of_mem parent hx)) (by omega)
        exact ⟨r2, hr2, stMono_trans hm1 hm2, by omega⟩

lemma dfsCD_isSome (g : Graph) (S : List Doc)
    (hS : ∀ d p, p ∈ getParents g d → p ∈ S) :
    ∀ (fuel : Nat) (current : Doc) (st : States) (path : List Doc),
      st current = NodeState.white → current ∈ S → whites S st < fuel →
      ∃ r, dfsCD g fuel current st path = some r ∧ StMono st r.2.1 ∧
        r.2.1 current ≠ NodeState.white := by
  intro fuel
  induction fuel with
  | zero => intro current st path _ _ h; omega
  | succ fuel ih =>
    intro current st path hw hcS hlt
    rw [dfsCD]
    have hmono1 : StMono st (setState st current NodeState.gray) :=
      stMono_setState_of_ne_white (by simp)
    have hg : setState st current NodeState.gray current = NodeState.gray :=
      setState_same st current NodeState.gray
    have hwlt : whites S (setState st current NodeState.gray) < fuel := by
      have h1 : whites S (setState st current NodeState.gray) < whites S st :=
        whites_lt_of_flip hmono1 hcS hw (by rw [hg]; simp)
      omega
    obtain ⟨r, hr, hmono, hle⟩ := dfsParentsGo_isSome g S fuel ih
      (getParents g current) (setState st current NodeState.gray) (path ++ [current])
      (fun x hx => hS current x hx) hwlt
    obtain ⟨ci, st2, p2⟩ := r
    rw [hr]
    have hnw2 : st2 current ≠ NodeState.white := by
      intro hc
      rw [hmono current hc] at hg
      simp at hg
    cases ci with
    | some ci =>
      exact ⟨(some ci, st2, p2), rfl, stMono_trans hmono1 hmono, hnw2⟩
    | none =>
      refine ⟨(none, setState st2 current NodeState.black, p2.dropLast), rfl, ?_, ?_⟩
      · exact stMono_trans hmono1 (stMono_trans hmono
          (stMono_setState_of_ne_white (by simp)))
      · show setState st2 current NodeState.black current ≠ NodeState.white
        rw [setState_same]
        simp

/-! ## All-paths DFS: the fuel bound is sufficient -/

lemma dfsAPListGo_isSome (g : Graph) (s e : Doc) (m fuel : Nat)
    (ih : ∀ (c : Doc) (pa v : List Doc), m + 2 ≤ fuel + pa.length → 1 ≤ fuel →
      (dfsAP g s e m fuel c pa v).isSome = true)
    (hf : 1 ≤ fuel) :
    ∀ (l : List Doc) (pa v : List Doc), m + 2 ≤ fuel + pa.length + 1 →
      (dfsAPListGo (fun n p vv => dfsAP g s e m fuel n p vv) l pa v).isSome = true := by
  intro l
  induction l with
  | nil => intro pa v _; rfl
  | cons n rest ihl =>
    intro pa v hlen
    rw [dfsAPListGo]
    by_cases hv : v.contains n
    · rw [if_pos hv]
      exact ihl pa v hlen
    · rw [if_neg hv]
      have h1 : (dfsAP g s e m fuel n (pa ++ [n]) v).isSome = true :=
        ih n (pa ++ [n]) v (by simp [List.length_append]; omega) hf
      obtain ⟨here, hr1⟩ := Option.isSome_iff_exists.mp h1
      rw [hr1]
      have h2 := ihl pa v hlen
      obtain ⟨later, hr2⟩ := Option.isSome_iff_exists.mp h2
      rw [hr2]
      rfl

lemma dfsAP_isSome (g : Graph) (s e : Doc) (m : Nat) :
    ∀ (fuel : Nat) (c : Doc) (pa v : List Doc),
      m + 2 ≤ fuel + pa.length → 1 ≤ fuel →
      (dfsAP g s e m fuel c pa v).isSome = true := by
  intro fuel
  induction fuel with
  | zero => intro c pa v _ h; omega
  | succ fuel ih =>
    intro c pa v hlen _
    rw [dfsAP]
    by_cases hgt : pa.length > m
    · rw [if_pos hgt]
      rfl
    · rw [if_neg hgt]
      have hf1 : 1 ≤ fuel := by omega
      by_cases hce : c = e
      · rw [if_pos hce]
        rfl
      · rw [if_neg hce]
        have h1 := dfsAPListGo_isSome g s e m fuel ih hf1 (getParents g c) pa
          (v ++ [c]) (by omega)
        obtain ⟨r1, hr1⟩ := Option.isSome_iff_exists.mp h1
        have h2 := dfsAPListGo_isSome g s e m fuel ih hf1 (getChildren g c) pa
          (v ++ [c]) (by omega)
        obtain ⟨r2, hr2⟩ := Option.isSome_iff_exists.mp h2
        simp only [hr1, hr2]
        rfl

/-! ## Shortest-path BFS: the fuel bound is sufficient -/

lemma unvisCount_append_lt {S v : List Doc} {n : Doc} (hn : n ∈ S) (hnv : n ∉ v) :
    unvisCount S (v ++ [n]) < unvisCount S v := by
  unfold unvisCount
  refine countP_lt_of_witness ?_ (List.mem_dedup.mpr hn) ?_ ?_
  · intro y _
    simp only [decide_eq_true_eq]
    intro hny hyv
    exact hny (List.mem_append.mpr (Or.inl hyv))
  · simpa using hnv
  · simp only [decide_eq_false_iff_not, not_not]
    exact List.mem_append.mpr (Or.inr (List.mem_singleton_self n))

lemma unvisCount_le_length (S v : List Doc) : unvisCount S v ≤ S.length :=
  le_trans (List.countP_le_length _) (List.Sublist.length_le (List.dedup_sublist S))

lemma scanNeighbors_measure (e : Doc) (pa : List Doc) (S : List Doc) :
    ∀ (l : List Doc) (q : List (Doc × List Doc)) (v : List Doc),
      (∀ x ∈ l, x ∈ S) → ∀ q2 v2, scanNeighbors e pa l q v = Sum.inr (q2, v2) →
        q2.length + unvisCount S v2 ≤ q.length + unvisCount S v := by
  intro l
  induction l with
  | nil =>
    intro q v _ q2 v2 h
    rw [scanNeighbors] at h
    simp only [Sum.inr.injEq, Prod.mk.injEq] at h
    rw [← h.1, ← h.2]
  | cons n rest ihl =>
    intro q v hmem q2 v2 h
    rw [scanNeighbors] at h
    by_cases hne : n = e
    · rw [if_pos hne] at h
      simp at h
    · rw [if_neg hne] at h
      by_cases hv : v.contains n
      · rw [if_pos hv] at h
        exact ihl q v (fun x hx => hmem x (List.mem_cons_of_mem n hx)) q2 v2 h
      · rw [if_neg hv] at h
        have hstep := ihl (q ++ [(n, pa ++ [n])]) (v ++ [n])
          (fun x hx => hmem x (List.mem_cons_of_mem n hx)) q2 v2 h
        have hdec : unvisCount S (v ++ [n]) < unvisCount S v :=
          unvisCount_append_lt (hmem n (List.mem_cons_self n rest)) (by simpa using hv)
        simp only [List.length_append, List.length_cons, List.length_nil] at hstep
        omega

lemma bfsSP_isSome (g : Graph) (s e : Doc) (S : List Doc)
    (hS1 : ∀ d x, x ∈ getParents g d → x ∈ S)
    (hS2 : ∀ d x, x ∈ getChildren g d → x ∈ S) :
    ∀ (fuel : Nat) (q : List (Doc × List Doc)) (v : List Doc),
      q.length + unvisCount S v < fuel → (bfsSP g s e fuel q v).isSome = true := by
  intro fuel
  induction fuel with
  | zero => intro q v h; omega
  | succ fuel ih =>
    intro q v hm
    cases q with
    | nil => rfl
    | cons head rest =>
      obtain ⟨node, pa⟩ := head
      rw [bfsSP]
      cases h1 : scanNeighbors e pa (getParents g node) rest v with
      | inl fp => simp [h1]
      | inr qv1 =>
        obtain ⟨q1, v1⟩ := qv1
        cases h2 : scanNeighbors e pa (getChildren g node) q1 v1 with
        | inl fp => simp [h1, h2]
        | inr qv2 =>
          obtain ⟨q2, v2⟩ := qv2
          simp only [h1, h2]
          apply ih
          have m1 := scanNeighbors_measure e pa S (getParents g node) rest v
            (fun x hx => hS1 node x hx) q1 v1 h1
          have m2 := scanNeighbors_measure e pa S (getChildren g node) q1 v1
            (fun x hx => hS2 node x hx) q2 v2 h2
          simp only [List.length_cons] at hm
          omega

/-! ## The document universe absorbs every traversal step -/

lemma parents_mem_docUniverse {g : Graph} {x : Doc} (s : Doc)
    (h : x ∈ parentsUniverse g) : x ∈ docUniverse g s := by
  unfold docUniverse
  simp only [List.mem_cons, List.mem_append]
  tauto

lemma children_mem_docUniverse {g : Graph} {x : Doc} (s : Doc)
    (h : x ∈ childrenUniverse g) : x ∈ docUniverse g s := by
  unfold docUniverse
  simp only [List.mem_cons, List.mem_append]
  tauto

lemma start_mem_docUniverse (g : Graph) (s : Doc) : s ∈ docUniverse g s :=
  List.mem_cons_self s _

lemma whites_le_length (S : List Doc) (st : States) : whites S st ≤ S.length :=
  le_trans (List.countP_le_length _) (List.Sublist.length_le (List.dedup_sublist S))

/-! ## Claim C4 (termination of every traversal) -/

/-- C4: on every graph, cyclic or not, each traversal is total: the cycle
DFS completes within its stated fuel from any start, getAncestors has
stabilized by depth `ancBound` (larger depth budgets change nothing, which
is exactly termination of its early-breaking loop), and the shortest-path
BFS and the bounded all-paths DFS complete within their stated fuel for
any endpoints and any bound. -/
theorem c4_termination :
    (∀ (g : Graph) (f : Doc),
      (dfsCD g (cdFuel g f) f initStates []).isSome = true) ∧
    (∀ (g : Graph) (f : Doc) (k : Nat),
      getAncestors g f (ancBound g + k) = getAncestors g f (ancBound g)) ∧
    (∀ (g : Graph) (s e : Doc),
      (bfsSP g s e (spFuel g s) [(s, [s])] [s]).isSome = true) ∧
    (∀ (g : Graph) (s e : Doc) (m : Nat),
      (dfsAP g s e m (apFuel m) s [s] []).isSome = true) := by
  refine ⟨?_, ?_, ?_, ?_⟩
  · intro g f
    obtain ⟨r, hr, -, -⟩ := dfsCD_isSome g (docUniverse g f)
      (fun d p hp => parents_mem_docUniverse f (getParents_mem_universe hp))
      (cdFuel g f) f initStates [] rfl (start_mem_docUniverse g f)
      (by have := whites_le_length (docUniverse g f) initStates
          unfold cdFuel
          omega)
    rw [hr]
    rfl
  · intro g f k
    exact getAncestors_stable g f (ancBound g + k) (by omega)
  · intro g s e
    refine bfsSP_isSome g s e (docUniverse g s)
      (fun d x hx => parents_mem_docUniverse s (getParents_mem_universe hx))
      (fun d x hx => children_mem_docUniverse s (getChildren_mem_universe hx))
      (spFuel g s) [(s, [s])] [s] ?_
    have := unvisCount_le_length (docUniverse g s) [s]
    unfold spFuel
    simp only [List.length_cons, List.length_nil]
    omega
  · intro g s e m
    exact dfsAP_isSome g s e m (apFuel m) s [s] []
      (by unfold apFuel; simp) (by unfold apFuel; omega)

/-! ## Graph-level lemmas about reachability and cycles -/

lemma black_reach {g : Graph} {st : States}
    (hc : ∀ d, st d = NodeState.black → ∀ p ∈ getParents g d, st p = NodeState.black)
    {d v : Doc} (hd : st d = NodeState.black) (hr : ReachP g d v) :
    st v = NodeState.black := by
  induction hr with
  | refl => exact hd
  | tail hab hbc ih => exact hc _ ih _ hbc

lemma no_cycle_of_parents {g : Graph} {u : Doc}
    (hp : ∀ p ∈ getParents g u, ¬ HasCycleFrom g p) : ¬ HasCycleFrom g u := by
  rintro ⟨v, hreach, hcyc⟩
  rcases Relation.ReflTransGen.cases_head hreach with heq | ⟨c, hstep, hrest⟩
  · subst heq
    obtain ⟨c, hstep, hrest⟩ := (Relation.TransGen.head'_iff).mp hcyc
    exact hp c hstep ⟨u, hrest, hcyc⟩
  · exact hp c hstep ⟨v, hrest, hcyc⟩

lemma chain'_getLast_reach {r : Doc → Doc → Prop} :
    ∀ (l : List Doc) (a : Doc), List.Chain' r (a :: l) →
      ∀ u, (a :: l).getLast? = some u → Relation.ReflTransGen r a u := by
  intro l
  induction l with
  | nil =>
    intro a _ u hu
    simp only [List.getLast?_singleton, Option.some.injEq] at hu
    rw [← hu]
  | cons b t ih =>
    intro a hch u hu
    rw [List.chain'_cons] at hch
    exact Relation.ReflTransGen.head hch.1
      (ih b hch.2 u (by rwa [List.getLast?_cons_cons] at hu))

lemma suffix_getLast? {l2 l1 : List Doc} (h : l2 <:+ l1) (hne : l2 ≠ []) :
    l2.getLast? = l1.getLast? := by
  obtain ⟨pre, rfl⟩ := h
  induction pre with
  | nil => simp
  | cons a t ih =>
    rw [List.cons_append]
    rw [List.getLast?_cons]
    rw [ih]
    cases ht : (t ++ l2).getLast? with
    | none =>
      rw [List.getLast?_eq_none_iff] at ht
      exact absurd (List.append_eq_nil.mp ht).2 hne
    | some x => simp [List.getLastD]

/-! ## buildCycleInfo characterization -/

lemma findIdx_drop_spec {cs : Doc} :
    ∀ {path : List Doc}, cs ∈ path →
      ∃ i, path.findIdx? (fun f => f == cs) = some i ∧
        ∃ suf, path.drop i = cs :: suf ∧ (cs :: suf) <:+ path := by
  intro path
  induction path with
  | nil => simp
  | cons a t ih =>
    intro h
    by_cases hac : a = cs
    · subst hac
      refine ⟨0, ?_, t, rfl, List.suffix_refl _⟩
      rw [List.findIdx?_cons]
      simp
    · have ht : cs ∈ t := by
        rcases List.mem_cons.mp h with h | h
        · exact absurd h.symm hac
        · exact h
      obtain ⟨i, hfi, suf, hdrop, hsuf⟩ := ih ht
      refine ⟨i + 1, ?_, suf, by simpa using hdrop, hsuf.trans (List.suffix_cons a t)⟩
      rw [List.findIdx?_cons]
      rw [if_neg (by simpa using hac), List.findIdx?_succ, hfi]
      rfl

lemma buildCycleInfo_cyclePath {cs : Doc} {path : List Doc} (h : cs ∈ path) :
    ∃ suf, (buildCycleInfo cs path).cyclePath = (cs :: suf) ++ [cs] ∧
      (cs :: suf) <:+ path := by
  obtain ⟨i, hfi, suf, hdrop, hsuf⟩ := findIdx_drop_spec h
  refine ⟨suf, ?_, hsuf⟩
  unfold buildCycleInfo
  rw [hfi]
  simp [hdrop]

lemma buildCycleInfo_length (cs : Doc) (path : List Doc) :
    (buildCycleInfo cs path).length = (buildCycleInfo cs path).cyclePath.length - 1 := by
  unfold buildCycleInfo
  cases path.findIdx? (fun f => f == cs) with
  | none => rfl
  | some i => rfl

/-- At a catch site the found parent is on the current path, the path is a
parent-edge chain ending at the node being scanned, and that node has the
found parent among its parents; this yields a real cycle and a well-formed
CycleInfo. -/
lemma cyclePost_of_catch {g : Graph} {cs u : Doc} {path : List Doc}
    (hmem : cs ∈ path) (hchain : path.Chain' (parentEdge g))
    (hlast : path.getLast? = some u) (hedge : cs ∈ getParents g u) :
    CyclePost g (buildCycleInfo cs path) := by
  obtain ⟨suf, hcp, hsuf⟩ := buildCycleInfo_cyclePath hmem
  have hchain2 : (cs :: suf).Chain' (parentEdge g) := hchain.suffix hsuf
  have hlast2 : (cs :: suf).getLast? = some u := by
    rw [suffix_getLast? hsuf (by simp), hlast]
  have hreach : Relation.ReflTransGen (parentEdge g) cs u :=
    chain'_getLast_reach suf cs hchain2 u hlast2
  refine ⟨⟨cs, Relation.TransGen.tail' hreach hedge⟩, ⟨cs, ?_, ?_⟩, ?_⟩
  · rw [hcp]
    rfl
  · rw [hcp]
    exact List.getLast?_concat _
  · exact buildCycleInfo_length cs path

/-! ## Postconditions of the cycle DFS

The clean-return conclusion: the path stack is restored, the invariant
holds again, blacks only grew, and everything reachable from the visited
node is black.  The cycle-return conclusion is `CyclePost`. -/

lemma dfsParentsGo_post (g : Graph) (fuel : Nat)
    (ih : ∀ (current : Doc) (st : States) (path : List Doc)
      (res : Option CycleInfo) (st2 : States) (p2 : List Doc),
      DfsInv g st path → st current = NodeState.white →
      (∀ prev, path.getLast? = some prev → parentEdge g prev current) →
      dfsCD g fuel current st path = some (res, st2, p2) →
      ((res = none → p2 = path ∧ DfsInv g st2 path ∧ BlackMono st st2 ∧
        ∀ v, ReachP g current v → st2 v = NodeState.black) ∧
       (∀ ci, res = some ci → CyclePost g ci))) :
    ∀ (l : List Doc) (u : Doc) (st : States) (path : List Doc)
      (res : Option CycleInfo) (st2 : States) (p2 : List Doc),
      DfsInv g st path → path.getLast? = some u → (∀ x ∈ l, x ∈ getParents g u) →
      dfsParentsGo (fun p s pa => dfsCD g fuel p s pa) l st path = some (res, st2, p2) →
      ((res = none → p2 = path ∧ DfsInv g st2 path ∧ BlackMono st st2 ∧
        ∀ x ∈ l, ∀ v, ReachP g x v → st2 v = NodeState.black) ∧
       (∀ ci, res = some ci → CyclePost g ci)) := by
  intro l
  induction l with
  | nil =>
    intro u st path res st2 p2 hinv hlast hmem heq
    rw [dfsParentsGo] at heq
    simp only [Option.some.injEq, Prod.mk.injEq] at heq
    obtain ⟨h1, h2, h3⟩ := heq
    subst res
    subst st2
    subst p2
    refine ⟨fun _ => ⟨rfl, hinv, fun d h => h, by simp⟩, ?_⟩
    intro ci hci
    simp at hci
  | cons x rest ihl =>
    intro u st path res st2 p2 hinv hlast hmem heq
    rw [dfsParentsGo] at heq
    cases hx : st x with
    | gray =>
      rw [hx] at heq
      simp only [Option.some.injEq, Prod.mk.injEq] at heq
      obtain ⟨h1, h2, h3⟩ := heq
      subst res
      subst st2
      subst p2
      constructor
      · intro hres
        simp at hres
      · intro ci hci
        injection hci with h
        rw [← h]
        exact cyclePost_of_catch ((hinv.gray_iff x).mp hx) hinv.chain hlast
          (hmem x (List.mem_cons_self x rest))
    | black =>
      rw [hx] at heq
      have hres := ihl u st path res st2 p2 hinv hlast
        (fun y hy => hmem y (List.mem_cons_of_mem x hy)) heq
      refine ⟨?_, hres.2⟩
      intro hr
      obtain ⟨hp2, hinv2, hbm, hrest⟩ := hres.1 hr
      refine ⟨hp2, hinv2, hbm, ?_⟩
      intro y hy v hv
      rcases List.mem_cons.mp hy with rfl | hy
      · exact hbm v (black_reach hinv.black_closed hx hv)
      · exact hrest y hy v hv
    | white =>
      rw [hx] at heq
      cases hcd : dfsCD g fuel x st path with
      | none =>
        rw [hcd] at heq
        cases heq
      | some r =>
        obtain ⟨ci1, stm, pm⟩ := r
        rw [hcd] at heq
        have hpost := ih x st path ci1 stm pm hinv hx
          (fun prev hprev => by
            rw [hlast] at hprev
            injection hprev with h
            rw [← h]
            exact hmem x (List.mem_cons_self x rest))
          hcd
        cases ci1 with
        | some ci =>
          simp only [Option.some.injEq, Prod.mk.injEq] at heq
          obtain ⟨h1, h2, h3⟩ := heq
          subst res
          subst st2
          subst p2
          constructor
          · intro hr
            simp at hr
          · intro ci2 hci2
            injection hci2 with h
            rw [← h]
            exact hpost.2 ci rfl
        | none =>
          obtain ⟨hpm, hinvm, hbm1, hreach1⟩ := hpost.1 rfl
          subst pm
          have hres := ihl u stm path res st2 p2 hinvm hlast
            (fun y hy => hmem y (List.mem_cons_of_mem x hy)) heq
          refine ⟨?_, hres.2⟩
          intro hr
          obtain ⟨hp2, hinv2, hbm2, hrest⟩ := hres.1 hr
          refine ⟨hp2, hinv2, fun d hd => hbm2 d (hbm1 d hd), ?_⟩
          intro y hy v hv
          rcases List.mem_cons.mp hy with rfl | hy
          · exact hbm2 v (hreach1 v hv)
          · exact hrest y hy v hv

lemma dfsCD_post (g : Graph) :
    ∀ (fuel : Nat) (current : Doc) (st : States) (path : List Doc)
      (res : Option CycleInfo) (st2 : States) (p2 : List Doc),
      DfsInv g st path → st current = NodeState.white →
      (∀ prev, path.getLast? = some prev → parentEdge g prev current) →
      dfsCD g fuel current st path = some (res, st2, p2) →
      ((res = none → p2 = path ∧ DfsInv g st2 path ∧ BlackMono st st2 ∧
        ∀ v, ReachP g current v → st2 v = NodeState.black) ∧
       (∀ ci, res = some ci → CyclePost g ci)) := by
  intro fuel
  induction fuel with
  | zero =>
    intro current st path res st2 p2 _ _ _ h
    cases h
  | succ fuel ih =>
    intro current st path res st2 p2 hinv hw hlink heq
    rw [dfsCD] at heq
    have hcur_notmem : current ∉ path := by
      intro hc
      have hg := (hinv.gray_iff current).mpr hc
      rw [hw] at hg
      cases hg
    have hinv1 : DfsInv g (setState st current NodeState.gray) (path ++ [current]) := by
      refine ⟨?_, ?_, ?_, ?_, ?_⟩
      · rw [List.nodup_append]
        exact ⟨hinv.nodup, List.nodup_singleton current,
          fun a ha hb => hcur_notmem (by rwa [List.mem_singleton.mp hb] at ha)⟩
      · intro d
        by_cases hdc : d = current
        · subst d
          rw [setState_same]
          simp
        · rw [setState_other _ hdc]
          rw [hinv.gray_iff d]
          simp [hdc]
      · rw [List.chain'_append]
        refine ⟨hinv.chain, List.chain'_singleton current, ?_⟩
        intro px hpx y hy
        simp only [List.head?_cons, Option.mem_def, Option.some.injEq] at hy
        subst hy
        exact hlink px hpx
      · intro d hd p hp
        have hdc : d ≠ current := by
          intro hc
          subst hc
          rw [setState_same] at hd
          cases hd
        rw [setState_other _ hdc] at hd
        have hpb := hinv.black_closed d hd p hp
        have hpc : p ≠ current := by
          intro hc
          subst hc
          rw [hw] at hpb
          cases hpb
        rw [setState_other _ hpc]
        exact hpb
      · intro d hd
        have hdc : d ≠ current := by
          intro hc
          subst hc
          rw [setState_same] at hd
          cases hd
        rw [setState_other _ hdc] at hd
        exact hinv.black_no_cycle d hd
    cases hgo : dfsParentsGo (fun p s pa => dfsCD g fuel p s pa) (getParents g current)
        (setState st current NodeState.gray) (path ++ [current]) with
    | none =>
      rw [hgo] at heq
      cases heq
    | some r =>
      obtain ⟨ci1, stm, pm⟩ := r
      rw [hgo] at heq
      have hpost := dfsParentsGo_post g fuel ih (getParents g current) current
        (setState st current NodeState.gray) (path ++ [current]) ci1 stm pm hinv1
        (List.getLast?_concat path) (fun y hy => hy) hgo
      have hbm0 : BlackMono st (setState st current NodeState.gray) := by
        intro d hd
        have hdc : d ≠ current := by
          intro hc
          subst hc
          rw [hw] at hd
          cases hd
        rwa [setState_other _ hdc]
      cases ci1 with
      | some ci =>
        simp only [Option.some.injEq, Prod.mk.injEq] at heq
        obtain ⟨h1, h2, h3⟩ := heq
        subst res
        subst st2
        subst p2
        constructor
        · intro hr
          simp at hr
        · intro ci2 hci2
          injection hci2 with h
          rw [← h]
          exact hpost.2 ci rfl
      | none =>
        obtain ⟨hpm, hinvm, hbm1, hreach1⟩ := hpost.1 rfl
        simp only [Option.some.injEq, Prod.mk.injEq] at heq
        obtain ⟨h1, h2, h3⟩ := heq
        subst res
        subst st2
        subst p2
        refine ⟨fun _ => ⟨?_, ?_, ?_, ?_⟩, ?_⟩
        · rw [hpm, List.dropLast_concat]
        · refine ⟨hinv.nodup, ?_, hinv.chain, ?_, ?_⟩
          · intro d
            by_cases hdc : d = current
            · subst d
              rw [setState_same]
              constructor
              · intro hc
                cases hc
              · intro hc
                exact absurd hc hcur_notmem
            · rw [setState_other _ hdc]
              rw [hinvm.gray_iff d]
              simp [hdc]
          · intro d hd p hp
            by_cases hdc : d = current
            · subst d
              have hpb : stm p = NodeState.black :=
                hreach1 p hp p Relation.ReflTransGen.refl
              by_cases hpc : p = current
              · subst p
                rw [setState_same]
              · rw [setState_other _ hpc]
                exact hpb
            · rw [setState_other _ hdc] at hd
              have hpb := hinvm.black_closed d hd p hp
              by_cases hpc : p = current
              · subst p
                rw [setState_same]
              · rw [setState_other _ hpc]
                exact hpb
          · intro d hd
            by_cases hdc : d = current
            · subst d
              refine no_cycle_of_parents ?_
              intro p hp
              exact hinvm.black_no_cycle p (hreach1 p hp p Relation.ReflTransGen.refl)
            · rw [setState_other _ hdc] at hd
              exact hinvm.black_no_cycle d hd
        · intro d hd
          have hd1 := hbm1 d (hbm0 d hd)
          by_cases hdc : d = current
          · subst d
            rw [setState_same]
          · rw [setState_other _ hdc]
            exact hd1
        · intro v hv
          rcases Relation.ReflTransGen.cases_head hv with heqv | ⟨c, hstep, hrest⟩
          · rw [← heqv, setState_same]
          · have hvb : stm v = NodeState.black := hreach1 c hstep v hrest
            by_cases hvc : v = current
            · subst v
              rw [setState_same]
            · rw [setState_other _ hvc]
              exact hvb
        · intro ci hci
          cases hci

/-! ## detectCycle and hasCycles: derived facts -/

lemma dfsInv_init (g : Graph) : DfsInv g initStates [] := by
  refine ⟨List.nodup_nil, ?_, List.chain'_nil, ?_, ?_⟩
  · intro d
    simp [initStates]
  · intro d hd
    simp [initStates] at hd
  · intro d hd
    simp [initStates] at hd

lemma detectCycle_spec (g : Graph) (start : Doc) :
    (detectCycle g start = none → ¬ HasCycleFrom g start) ∧
    (∀ ci, detectCycle g start = some ci → CyclePost g ci) := by
  obtain ⟨r, hr, -, -⟩ := dfsCD_isSome g (docUniverse g start)
    (fun d p hp => parents_mem_docUniverse start (getParents_mem_universe hp))
    (cdFuel g start) start initStates [] rfl (start_mem_docUniverse g start)
    (by have := whites_le_length (docUniverse g start) initStates
        unfold cdFuel
        omega)
  obtain ⟨res, st2, p2⟩ := r
  have hpost := dfsCD_post g (cdFuel g start) start initStates [] res st2 p2
    (dfsInv_init g) rfl (by intro prev h; simp at h) hr
  have hdc : detectCycle g start = res := by
    unfold detectCycle
    rw [hr]
  constructor
  · intro hnone
    rw [hdc] at hnone
    obtain ⟨-, hinv2, -, hreach⟩ := hpost.1 hnone
    exact hinv2.black_no_cycle start (hreach start Relation.ReflTransGen.refl)
  · intro ci hci
    rw [hdc] at hci
    exact hpost.2 ci hci

lemma hasCyclesLoop_isSome (g : Graph) :
    ∀ (l : List Doc) (st : States), (hasCyclesLoop g l st).isSome = true := by
  intro l
  induction l with
  | nil => intro st; rfl
  | cons f rest ih =>
    intro st
    cases hf : st f with
    | white =>
      obtain ⟨r, hr, -, -⟩ := dfsCD_isSome g (docUniverse g f)
        (fun d p hp => parents_mem_docUniverse f (getParents_mem_universe hp))
        (cdFuel g f) f st [] hf (start_mem_docUniverse g f)
        (by have := whites_le_length (docUniverse g f) st
            unfold cdFuel
            omega)
      obtain ⟨res, st2, p2⟩ := r
      cases res with
      | some ci =>
        have hstep : hasCyclesLoop g (f :: rest) st = some true := by
          rw [hasCyclesLoop, hf, hr]
        rw [hstep]
        rfl
      | none =>
        have hstep : hasCyclesLoop g (f :: rest) st = hasCyclesLoop g rest st2 := by
          rw [hasCyclesLoop, hf, hr]
        rw [hstep]
        exact ih st2
    | gray =>
      have hstep : hasCyclesLoop g (f :: rest) st = hasCyclesLoop g rest st := by
        rw [hasCyclesLoop, hf]
      rw [hstep]
      exact ih st
    | black =>
      have hstep : hasCyclesLoop g (f :: rest) st = hasCyclesLoop g rest st := by
        rw [hasCyclesLoop, hf]
      rw [hstep]
      exact ih st

lemma hasCyclesLoop_true_cyclic (g : Graph) :
    ∀ (l : List Doc) (st : States), DfsInv g st [] →
      hasCyclesLoop g l st = some true → GraphCyclic g := by
  intro l
  induction l with
  | nil =>
    intro st _ h
    simp [hasCyclesLoop] at h
  | cons f rest ih =>
    intro st hinv heq
    cases hf : st f with
    | white =>
      cases hcd : dfsCD g (cdFuel g f) f st [] with
      | none =>
        have hstep : hasCyclesLoop g (f :: rest) st = none := by
          rw [hasCyclesLoop, hf, hcd]
        rw [hstep] at heq
        cases heq
      | some r =>
        obtain ⟨res, st2, p2⟩ := r
        have hpost := dfsCD_post g (cdFuel g f) f st [] res st2 p2 hinv hf
          (by intro prev h; simp at h) hcd
        cases res with
        | some ci => exact (hpost.2 ci rfl).1
        | none =>
          obtain ⟨-, hinv2, -, -⟩ := hpost.1 rfl
          have hstep : hasCyclesLoop g (f :: rest) st = hasCyclesLoop g rest st2 := by
            rw [hasCyclesLoop, hf, hcd]
          rw [hstep] at heq
          exact ih st2 hinv2 heq
    | gray =>
      have hstep : hasCyclesLoop g (f :: rest) st = hasCyclesLoop g rest st := by
        rw [hasCyclesLoop, hf]
      rw [hstep] at heq
      exact ih st hinv heq
    | black =>
      have hstep : hasCyclesLoop g (f :: rest) st = hasCyclesLoop g rest st := by
        rw [hasCyclesLoop, hf]
      rw [hstep] at heq
      exact ih st hinv heq

lemma hasCyclesLoop_false_acyclic (g : Graph) :
    ∀ (l : List Doc) (st : States), DfsInv g st [] →
      hasCyclesLoop g l st = some false → ∀ x ∈ l, ¬ HasCycleFrom g x := by
  intro l
  induction l with
  | nil =>
    intro st _ _ x hx
    simp at hx
  | cons f rest ih =>
    intro st hinv heq
    cases hf : st f with
    | white =>
      cases hcd : dfsCD g (cdFuel g f) f st [] with
      | none =>
        have hstep : hasCyclesLoop g (f :: rest) st = none := by
          rw [hasCyclesLoop, hf, hcd]
        rw [hstep] at heq
        cases heq
      | some r =>
        obtain ⟨res, st2, p2⟩ := r
        have hpost := dfsCD_post g (cdFuel g f) f st [] res st2 p2 hinv hf
          (by intro prev h; simp at h) hcd
        cases res with
        | some ci =>
          have hstep : hasCyclesLoop g (f :: rest) st = some true := by
            rw [hasCyclesLoop, hf, hcd]
          rw [hstep] at heq
          simp at heq
        | none =>
          obtain ⟨-, hinv2, -, hreach⟩ := hpost.1 rfl
          have hstep : hasCyclesLoop g (f :: rest) st = hasCyclesLoop g rest st2 := by
            rw [hasCyclesLoop, hf, hcd]
          rw [hstep] at heq
          intro x hx
          rcases List.mem_cons.mp hx with rfl | hx
          · exact hinv2.black_no_cycle x (hreach x Relation.ReflTransGen.refl)
          · exact ih st2 hinv2 heq x hx
    | gray =>
      have hg := (hinv.gray_iff f).mp hf
      simp at hg
    | black =>
      have hstep : hasCyclesLoop g (f :: rest) st = hasCyclesLoop g rest st := by
        rw [hasCyclesLoop, hf]
      rw [hstep] at heq
      intro x hx
      rcases List.mem_cons.mp hx with rfl | hx
      · exact hinv.black_no_cycle x hf
      · exact ih st hinv heq x hx

lemma onCycle_mem_keys {g : Graph} {v : Doc} (h : OnCycle g v) : v ∈ graphKeys g := by
  obtain ⟨c, hstep, -⟩ := (Relation.TransGen.head'_iff).mp h
  exact mem_graphKeys_of_getParents_ne (List.ne_nil_of_mem hstep)

lemma getAllFiles_eq_keys {g : Graph} (h : WellFormed g) :
    getAllFiles g = graphKeys g := by
  unfold getAllFiles graphKeys
  exact List.map_congr_left (fun e he => h.2 e he)

/-! ## Claim C5 (hasCycles agrees with per-document detectCycle) -/

/-- C5: on every well-formed graph state (distinct keys, file = key, the
only states the class builds), hasCycles is true exactly when some document
of the graph has a non-null detectCycle, and hasCycles is false on every
acyclic graph, the empty graph included. -/
theorem c5_hasCycles_iff (g : Graph) (hwf : WellFormed g) :
    (hasCycles g = true ↔ ∃ f ∈ getAllFiles g, detectCycle g f ≠ none) ∧
    (¬ GraphCyclic g → hasCycles g = false) := by
  obtain ⟨b, hloop⟩ := Option.isSome_iff_exists.mp
    (hasCyclesLoop_isSome g (getAllFiles g) initStates)
  have hb : hasCycles g = b := by
    unfold hasCycles
    rw [hloop]
    rfl
  have hfwd : hasCycles g = true → GraphCyclic g := by
    intro ht
    have hbt : b = true := by rw [← hb, ht]
    subst hbt
    exact hasCyclesLoop_true_cyclic g (getAllFiles g) initStates (dfsInv_init g) hloop
  have hback : GraphCyclic g → hasCycles g = true := by
    rintro ⟨v, hv⟩
    cases b with
    | true => exact hb
    | false =>
      have hall := hasCyclesLoop_false_acyclic g (getAllFiles g) initStates
        (dfsInv_init g) hloop
      have hvmem : v ∈ getAllFiles g := by
        rw [getAllFiles_eq_keys hwf]
        exact onCycle_mem_keys hv
      exact absurd ⟨v, Relation.ReflTransGen.refl, hv⟩ (hall v hvmem)
  constructor
  · constructor
    · intro ht
      obtain ⟨v, hv⟩ := hfwd ht
      refine ⟨v, ?_, ?_⟩
      · rw [getAllFiles_eq_keys hwf]
        exact onCycle_mem_keys hv
      · intro hnone
        exact (detectCycle_spec g v).1 hnone ⟨v, Relation.ReflTransGen.refl, hv⟩
    · rintro ⟨f, hf, hne⟩
      obtain ⟨ci, hci⟩ := Option.ne_none_iff_exists'.mp hne
      exact hback ((detectCycle_spec g f).2 ci hci).1
  · intro hacyc
    cases hhc : hasCycles g with
    | false => rfl
    | true => exact absurd (hfwd hhc) hacyc

/-- C5 witness at the chain corpus. -/
theorem c5_hasCycles_iff_witness :
    ((hasCycles chainG = true ↔ ∃ f ∈ getAllFiles chainG, detectCycle chainG f ≠ none) ∧
      (¬ GraphCyclic chainG → hasCycles chainG = false)) :=
  c5_hasCycles_iff chainG (by constructor
                              · decide
                              · decide)

/-! ## Claim C8 (self-parent cycles and CycleInfo shape) -/

lemma buildCycleInfo_self (doc : Doc) :
    buildCycleInfo doc [doc] =
      ⟨[doc, doc], doc,
        "Cycle detected: " ++ String.intercalate " → " [doc, doc], 1⟩ := by
  unfold buildCycleInfo
  rw [List.findIdx?_cons]
  simp

lemma detectCycle_first_parent_self {g : Graph} {doc : Doc}
    (h : (getParents g doc).head? = some doc) :
    detectCycle g doc = some (buildCycleInfo doc [doc]) := by
  obtain ⟨rest, hrest⟩ : ∃ rest, getParents g doc = doc :: rest := by
    cases hp : getParents g doc with
    | nil => rw [hp] at h; cases h
    | cons a t =>
      rw [hp] at h
      simp only [List.head?_cons, Option.some.injEq] at h
      exact ⟨t, by rw [h]⟩
  unfold detectCycle
  rw [show cdFuel g doc = (docUniverse g doc).length + 1 from rfl]
  rw [dfsCD]
  simp only [hrest, dfsParentsGo, setState_same, List.nil_append]

/-- C8, amended: for every document whose parents list begins with itself,
detectCycle returns the cycle [doc, doc] of length 1; and every CycleInfo
any detectCycle call produces closes on itself (first entry = last entry)
with its length field equal to its path length minus one. -/
theorem c8_self_cycle_amended :
    (∀ (g : Graph) (doc : Doc), (getParents g doc).head? = some doc →
      detectCycle g doc = some ⟨[doc, doc], doc,
        "Cycle detected: " ++ String.intercalate " → " [doc, doc], 1⟩) ∧
    (∀ (g : Graph) (doc : Doc) (ci : CycleInfo), detectCycle g doc = some ci →
      (∃ v, ci.cyclePath.head? = some v ∧ ci.cyclePath.getLast? = some v) ∧
      ci.length = ci.cyclePath.length - 1) := by
  constructor
  · intro g doc h
    rw [detectCycle_first_parent_self h, buildCycleInfo_self]
  · intro g doc ci hci
    obtain ⟨-, hfl, hlen⟩ := (detectCycle_spec g doc).2 ci hci
    exact ⟨hfl, hlen⟩

/-- C8, witness at the self-loop corpus. -/
theorem c8_self_cycle_amended_witness :
    detectCycle selfG "a" = some ⟨["a", "a"], "a",
      "Cycle detected: " ++ String.intercalate " → " ["a", "a"], 1⟩ ∧
    ((∃ v, (["a", "a"] : List Doc).head? = some v ∧
        (["a", "a"] : List Doc).getLast? = some v) ∧
      (1 : Nat) = (["a", "a"] : List Doc).length - 1) :=
  ⟨c8_self_cycle_amended.1 selfG "a" (by decide),
   c8_self_cycle_amended.2 selfG "a"
     ⟨["a", "a"], "a", "Cycle detected: " ++ String.intercalate " → " ["a", "a"], 1⟩
     (c8_self_cycle_amended.1 selfG "a" (by decide))⟩

/-- C8, counterexample: document d is its own parent, but its parents list
holds c first, and c is a self-loop; the DFS explores c before the d → d
edge and returns the cycle [c, c], not [d, d]. -/
theorem c8_self_cycle_counterexample :
    "d" ∈ getParents earlyCycleG "d" ∧
    detectCycle earlyCycleG "d" =
      some ⟨["c", "c"], "d", "Cycle detected: c → c", 1⟩ ∧
    (["c", "c"] : List Doc) ≠ ["d", "d"] := by
  decide

/-! ## build: lemmas about the two passes -/

lemma lookupNode_isSome_of_mem {g : Graph} {p : Doc} (h : p ∈ graphKeys g) :
    (lookupNode g p).isSome = true := by
  obtain ⟨e, he, hep⟩ := List.mem_map.mp h
  unfold lookupNode
  cases hf : g.find? (fun e => e.1 == p) with
  | none =>
    rw [List.find?_eq_none] at hf
    exact absurd (show (e.1 == p) = true by simpa using hep) (hf e he)
  | some x => rfl

lemma graphKeys_addChild (h : Graph) (p c : Doc) :
    graphKeys (addChild h p c) = graphKeys h := by
  unfold graphKeys addChild
  rw [List.map_map]
  refine List.map_congr_left ?_
  intro e _
  by_cases hep : e.1 = p
  · simp [hep]
  · simp [hep]

lemma lookupNode_addChild (h : Graph) (p c q : Doc) :
    lookupNode (addChild h p c) q =
      (lookupNode h q).map (fun n =>
        if q = p then ⟨n.file, n.parents, n.children ++ [c]⟩ else n) := by
  induction h with
  | nil => rfl
  | cons e t ih =>
    unfold addChild at ih ⊢
    simp only [List.map_cons]
    unfold lookupNode at ih ⊢
    by_cases heq : e.1 = q
    · by_cases hep : e.1 = p
      · rw [if_pos (by simp [hep])]
        rw [List.find?_cons_of_pos _ (by simp [heq])]
        rw [List.find?_cons_of_pos _ (by simp [heq])]
        simp only [Option.map_some']
        rw [if_pos (by rw [← heq, hep])]
      · rw [if_neg (by simp [hep])]
        rw [List.find?_cons_of_pos _ (by simp [heq])]
        rw [List.find?_cons_of_pos _ (by simp [heq])]
        simp only [Option.map_some']
        rw [if_neg (by rw [← heq]; exact fun hc => hep hc)]
    · by_cases hep : e.1 = p
      · rw [if_pos (by simp [hep])]
        rw [List.find?_cons_of_neg _ (by simp [heq])]
        rw [List.find?_cons_of_neg _ (by simp [heq])]
        exact ih
      · rw [if_neg (by simp [hep])]
        rw [List.find?_cons_of_neg _ (by simp [heq])]
        rw [List.find?_cons_of_neg _ (by simp [heq])]
        exact ih

lemma getChildren_addChild_other {h : Graph} {p q : Doc} (c : Doc) (hqp : q ≠ p) :
    getChildren (addChild h p c) q = getChildren h q := by
  unfold getChildren
  rw [lookupNode_addChild]
  cases lookupNode h q with
  | none => rfl
  | some n => simp [hqp]

lemma getChildren_addChild_same {h : Graph} {p : Doc} (c : Doc) :
    getChildren (addChild h p c) p =
      getChildren h p ++ (if p ∈ graphKeys h then [c] else []) := by
  unfold getChildren
  rw [lookupNode_addChild]
  by_cases hk : p ∈ graphKeys h
  · obtain ⟨n, hn⟩ := Option.isSome_iff_exists.mp (lookupNode_isSome_of_mem hk)
    rw [hn]
    simp [hk]
  · rw [lookupNode_eq_none hk]
    simp [hk]

lemma getParents_addChild (h : Graph) (p c q : Doc) :
    getParents (addChild h p c) q = getParents h q := by
  unfold getParents
  rw [lookupNode_addChild]
  cases lookupNode h q with
  | none => rfl
  | some n =>
    by_cases hqp : q = p
    · simp [hqp]
    · simp [hqp]

lemma getChildren_foldl_addChild (c : Doc) :
    ∀ (ps : List Doc) (h : Graph) (P : Doc),
      getChildren (ps.foldl (fun acc p => addChild acc p c) h) P =
        getChildren h P ++
          (if P ∈ graphKeys h then List.replicate (ps.count P) c else []) := by
  intro ps
  induction ps with
  | nil =>
    intro h P
    by_cases hk : P ∈ graphKeys h
    · simp [hk]
    · simp [hk]
  | cons p t ih =>
    intro h P
    simp only [List.foldl_cons]
    rw [ih]
    rw [graphKeys_addChild]
    by_cases hPk : P ∈ graphKeys h
    · rw [if_pos hPk, if_pos hPk]
      by_cases hPp : P = p
      · subst p
        rw [getChildren_addChild_same c, if_pos hPk]
        rw [List.count_cons_self, List.append_assoc]
        simp [List.replicate_succ]
      · rw [getChildren_addChild_other c hPp]
        rw [List.count_cons_of_ne (by simpa using hPp)]
    · rw [if_neg hPk, if_neg hPk]
      by_cases hPp : P = p
      · subst p
        rw [getChildren_addChild_same c, if_neg hPk]
        simp
      · rw [getChildren_addChild_other c hPp]

lemma graphKeys_foldl_addChild (c : Doc) (ps : List Doc) (h : Graph) :
    graphKeys (ps.foldl (fun acc p => addChild acc p c) h) = graphKeys h := by
  induction ps generalizing h with
  | nil => rfl
  | cons p t ih =>
    simp only [List.foldl_cons]
    rw [ih, graphKeys_addChild]

lemma getParents_foldl_addChild (c : Doc) (ps : List Doc) (h : Graph) (q : Doc) :
    getParents (ps.foldl (fun acc p => addChild acc p c) h) q = getParents h q := by
  induction ps generalizing h with
  | nil => rfl
  | cons p t ih =>
    simp only [List.foldl_cons]
    rw [ih, getParents_addChild]

lemma getChildren_foldl_outer :
    ∀ (L : List (Doc × List Doc)) (h : Graph) (P : Doc), P ∈ graphKeys h →
      getChildren (L.foldl
          (fun gacc cp => cp.2.foldl (fun acc p => addChild acc p cp.1) gacc) h) P =
        getChildren h P ++
          (L.map (fun cp => List.replicate (cp.2.count P) cp.1)).flatten := by
  intro L
  induction L with
  | nil =>
    intro h P _
    simp
  | cons cp t ih =>
    intro h P hPk
    simp only [List.foldl_cons]
    rw [ih _ _ (by rw [graphKeys_foldl_addChild]; exact hPk)]
    rw [getChildren_foldl_addChild, if_pos hPk]
    simp [List.append_assoc]

lemma getParents_foldl_outer (L : List (Doc × List Doc)) (h : Graph) (q : Doc) :
    getParents (L.foldl
        (fun gacc cp => cp.2.foldl (fun acc p => addChild acc p cp.1) gacc) h) q =
      getParents h q := by
  induction L generalizing h with
  | nil => rfl
  | cons cp t ih =>
    simp only [List.foldl_cons]
    rw [ih, getParents_foldl_addChild]

lemma mapSet_of_not_mem {g : Graph} {k : Doc} (hk : k ∉ graphKeys g) (v : NodeInfo) :
    mapSet g k v = g ++ [(k, v)] := by
  unfold mapSet
  rw [if_neg]
  simp only [List.any_eq_true, not_exists, not_and, Bool.not_eq_true]
  intro e he
  rw [beq_eq_false_iff_ne]
  intro hek
  exact hk (by rw [← hek]; exact List.mem_map_of_mem _ he)

lemma buildPass1_eq :
    ∀ (input : List (Doc × List Doc)), (input.map Prod.fst).Nodup →
      buildPass1 input = input.map (fun fp => (fp.1, ⟨fp.1, fp.2, []⟩)) := by
  suffices h : ∀ (input : List (Doc × List Doc)) (g : Graph),
      (∀ k ∈ input.map Prod.fst, k ∉ graphKeys g) → (input.map Prod.fst).Nodup →
      input.foldl (fun g fp => mapSet g fp.1 ⟨fp.1, fp.2, []⟩) g =
        g ++ input.map (fun fp => (fp.1, ⟨fp.1, fp.2, []⟩)) by
    intro input hnd
    have := h input [] (by simp [graphKeys]) hnd
    simpa [buildPass1] using this
  intro input
  induction input with
  | nil =>
    intro g _ _
    simp
  | cons fp t ih =>
    intro g hdis hnd
    simp only [List.foldl_cons]
    have h1 : ∀ k ∈ List.map Prod.fst t,
        k ∉ graphKeys (g ++ [(fp.1, (⟨fp.1, fp.2, []⟩ : NodeInfo))]) := by
      intro k hk
      unfold graphKeys
      rw [List.map_append, List.mem_append]
      rintro (hkg | hkg)
      · exact hdis k (by simp [hk]) hkg
      · simp only [List.map_cons, List.map_nil, List.mem_singleton] at hkg
        rw [List.map_cons, List.nodup_cons] at hnd
        exact hnd.1 (by rwa [← hkg])
    have h2 : (List.map Prod.fst t).Nodup := by
      rw [List.map_cons, List.nodup_cons] at hnd
      exact hnd.2
    rw [mapSet_of_not_mem (hdis fp.1 (by simp)) _, ih _ h1 h2]
    simp

lemma lookupNode_map_input :
    ∀ (input : List (Doc × List Doc)) (C : Doc) (ps : List Doc),
      (input.map Prod.fst).Nodup → (C, ps) ∈ input →
      lookupNode (input.map (fun fp => (fp.1, ⟨fp.1, fp.2, []⟩))) C =
        some ⟨C, ps, []⟩ := by
  intro input
  induction input with
  | nil =>
    intro C ps _ h
    simp at h
  | cons fp t ih =>
    intro C ps hnd hmem
    rw [List.map_cons, List.nodup_cons] at hnd
    rw [List.map_cons]
    unfold lookupNode
    by_cases hC : fp.1 = C
    · rw [List.find?_cons_of_pos _ (by simp [hC])]
      rcases List.mem_cons.mp hmem with heq | hmemt
      · rw [← heq]
        simp [hC, ← heq]
      · exact absurd (show fp.1 ∈ List.map Prod.fst t by
            rw [hC]
            simpa using List.mem_map_of_mem Prod.fst hmemt) hnd.1
    · rw [List.find?_cons_of_neg _ (by simp [hC])]
      rcases List.mem_cons.mp hmem with heq | hmemt
      · rw [← heq] at hC
        simp at hC
      · exact ih C ps hnd.2 hmemt

lemma getChildren_pass1_empty (input : List (Doc × List Doc)) (P : Doc) :
    getChildren (input.map (fun fp => (fp.1, ⟨fp.1, fp.2, []⟩))) P = [] := by
  unfold getChildren
  cases hlk : lookupNode (input.map (fun fp => (fp.1, ⟨fp.1, fp.2, []⟩))) P with
  | none => rfl
  | some n =>
    obtain ⟨e, he, hn, -⟩ := lookupNode_mem hlk
    obtain ⟨fp, -, hfpe⟩ := List.mem_map.mp he
    rw [← hn, ← hfpe]

lemma map_file_parents_pass1 (input : List (Doc × List Doc)) :
    (input.map (fun fp => (fp.1, (⟨fp.1, fp.2, []⟩ : NodeInfo)))).map
        (fun e => (e.2.file, e.2.parents)) = input := by
  rw [List.map_map]
  have hfun : ((fun e : Doc × NodeInfo => (e.2.file, e.2.parents)) ∘
      (fun fp : Doc × List Doc => (fp.1, ⟨fp.1, fp.2, []⟩))) =
      (fun fp : Doc × List Doc => (fp.1, fp.2)) := rfl
  rw [hfun]
  simp

/-! ## Claim C3 (children is the inverse index of parents) -/

/-- C3, counterexample: a corpus in which document a lists parent p twice
produces p's children list [a, a]: a appears twice, not exactly once. -/
theorem c3_children_inverse_counterexample :
    (getChildren (build dupInput) "p").count "a" = 2 ∧
    (getChildren (build dupInput) "p").count "a" ≠ 1 := by
  decide

/-- C3, amended: after build on a corpus with distinct paths, the children
list of every document P of the graph is exactly the corpus-order
concatenation, over all documents C, of one copy of C per occurrence of P
in C's parents list (so C appears in P's children exactly as many times as
C lists P, exactly once when C's parents are duplicate-free, and nothing
else ever appears in a children list); parents lists are stored as
scanned. -/
theorem c3_children_inverse_amended :
    ∀ (input : List (Doc × List Doc)), (input.map Prod.fst).Nodup →
      (∀ P, P ∈ input.map Prod.fst →
        getChildren (build input) P =
          (input.map (fun cp => List.replicate (cp.2.count P) cp.1)).flatten) ∧
      (∀ C ps, (C, ps) ∈ input → getParents (build input) C = ps) := by
  intro input hnd
  constructor
  · intro P hP
    unfold build buildPass2
    rw [buildPass1_eq input hnd]
    rw [map_file_parents_pass1]
    rw [getChildren_foldl_outer input _ P
      (by unfold graphKeys
          rw [List.map_map]
          simpa using hP)]
    rw [getChildren_pass1_empty]
    rfl
  · intro C ps hmem
    unfold build buildPass2
    rw [buildPass1_eq input hnd]
    rw [map_file_parents_pass1]
    rw [getParents_foldl_outer]
    unfold getParents
    rw [lookupNode_map_input input C ps hnd hmem]

/-- C3, witness at a two-document corpus with a single parent edge. -/
theorem c3_children_inverse_amended_witness :
    getChildren (build [("a", ["p"]), ("p", [])]) "p" =
      ([("a", ["p"]), ("p", [])].map
        (fun cp => List.replicate (cp.2.count "p") cp.1)).flatten ∧
    getParents (build [("a", ["p"]), ("p", [])]) "a" = ["p"] :=
  ⟨(c3_children_inverse_amended [("a", ["p"]), ("p", [])] (by decide)).1 "p" (by decide),
   (c3_children_inverse_amended [("a", ["p"]), ("p", [])] (by decide)).2 "a" ["p"]
     (by decide)⟩

/-! ## Walk lemmas -/

lemma walkFrom_snoc {g : Graph} {s n x : Doc} {p : List Doc}
    (h : WalkFrom g s n p) (ha : adjStep g n x) :
    WalkFrom g s x (p ++ [x]) := by
  obtain ⟨hw, hh, hl⟩ := h
  refine ⟨?_, ?_, List.getLast?_concat p⟩
  · rw [IsWalk, List.chain'_append]
    refine ⟨hw, List.chain'_singleton x, ?_⟩
    intro a haa y hy
    simp only [List.head?_cons, Option.mem_def, Option.some.injEq] at hy
    subst hy
    have han : a = n := by
      rw [Option.mem_def, hl] at haa
      injection haa with h
      exact h.symm
    rw [han]
    exact ha
  · cases p with
    | nil => cases hh
    | cons a t =>
      simp only [List.head?_cons, Option.some.injEq] at hh
      subst hh
      rfl

lemma walkFrom_two_le {g : Graph} {a e : Doc} {r : List Doc}
    (h : WalkFrom g a e r) (hne : a ≠ e) : 2 ≤ r.length := by
  obtain ⟨-, hh, hl⟩ := h
  cases r with
  | nil => cases hh
  | cons b t =>
    simp only [List.head?_cons, Option.some.injEq] at hh
    subst hh
    cases t with
    | nil =>
      simp only [List.getLast?_singleton, Option.some.injEq] at hl
      exact absurd hl hne
    | cons c t2 => simp

lemma walkFrom_decompose {g : Graph} {a e : Doc} {r : List Doc}
    (h : WalkFrom g a e r) (hne : a ≠ e) :
    ∃ x0 t, r = a :: x0 :: t ∧ adjStep g a x0 ∧ WalkFrom g x0 e (x0 :: t) := by
  obtain ⟨hw, hh, hl⟩ := h
  cases r with
  | nil => cases hh
  | cons b t =>
    simp only [List.head?_cons, Option.some.injEq] at hh
    subst hh
    cases t with
    | nil =>
      simp only [List.getLast?_singleton, Option.some.injEq] at hl
      exact absurd hl hne
    | cons x0 t2 =>
      rw [IsWalk, List.chain'_cons] at hw
      refine ⟨x0, t2, rfl, hw.1, hw.2, rfl, ?_⟩
      rwa [List.getLast?_cons_cons] at hl

lemma walk_escape (g : Graph) (e : Doc) (q2 : List (Doc × List Doc)) (v2 : List Doc)
    (henv : e ∉ v2)
    (hclos : ∀ w ∈ v2, w ∉ q2.map Prod.fst → ∀ x, adjStep g w x → x ∈ v2 ∧ x ≠ e) :
    ∀ (k : Nat) (r : List Doc) (a : Doc), r.length ≤ k →
      WalkFrom g a e r → a ∈ v2 →
      ∃ ent ∈ q2, ∃ r3, WalkFrom g ent.1 e r3 ∧ r3.length ≤ r.length := by
  intro k
  induction k with
  | zero =>
    intro r a hk hw _
    obtain ⟨-, hh, -⟩ := hw
    cases r with
    | nil => cases hh
    | cons b t => simp at hk
  | succ k ih =>
    intro r a hk hw hav
    by_cases haq : a ∈ q2.map Prod.fst
    · obtain ⟨ent, hent, hefst⟩ := List.mem_map.mp haq
      exact ⟨ent, hent, r, by rw [hefst]; exact hw, le_rfl⟩
    · have hane : a ≠ e := fun hc => henv (hc ▸ hav)
      obtain ⟨x0, t, hr, hadj, hw2⟩ := walkFrom_decompose hw hane
      obtain ⟨hx0v, -⟩ := hclos a hav haq x0 hadj
      obtain ⟨ent, hent, r3, hw3, hlen⟩ := ih (x0 :: t) x0
        (by rw [hr] at hk; simp at hk ⊢; omega) hw2 hx0v
      refine ⟨ent, hent, r3, hw3, ?_⟩
      rw [hr]
      simp only [List.length_cons] at hlen ⊢
      omega

/-! ## scanNeighbors characterization -/

lemma scanNeighbors_inl_spec (e : Doc) (pa : List Doc) :
    ∀ (l : List Doc) (q : List (Doc × List Doc)) (v : List Doc) (fp : List Doc),
      scanNeighbors e pa l q v = Sum.inl fp → fp = pa ++ [e] ∧ e ∈ l := by
  intro l
  induction l with
  | nil =>
    intro q v fp h
    rw [scanNeighbors] at h
    cases h
  | cons n rest ih =>
    intro q v fp h
    rw [scanNeighbors] at h
    by_cases hne : n = e
    · rw [if_pos hne] at h
      injection h with h
      subst n
      exact ⟨h.symm, List.mem_cons_self _ _⟩
    · rw [if_neg hne] at h
      by_cases hv : v.contains n
      · rw [if_pos hv] at h
        obtain ⟨h1, h2⟩ := ih _ _ _ h
        exact ⟨h1, List.mem_cons_of_mem n h2⟩
      · rw [if_neg hv] at h
        obtain ⟨h1, h2⟩ := ih _ _ _ h
        exact ⟨h1, List.mem_cons_of_mem n h2⟩

lemma scanNeighbors_inr_spec (e : Doc) (pa : List Doc) :
    ∀ (l : List Doc) (q : List (Doc × List Doc)) (v : List Doc)
      (q2 : List (Doc × List Doc)) (v2 : List Doc),
      scanNeighbors e pa l q v = Sum.inr (q2, v2) →
      (∀ x ∈ l, x ≠ e ∧ x ∈ v2) ∧
      (∃ news, q2 = q ++ news ∧ v2 = v ++ news.map Prod.fst ∧
        ∀ ent ∈ news, ent.2 = pa ++ [ent.1] ∧ ent.1 ∈ l ∧ ent.1 ∉ v) := by
  intro l
  induction l with
  | nil =>
    intro q v q2 v2 h
    rw [scanNeighbors] at h
    simp only [Sum.inr.injEq, Prod.mk.injEq] at h
    obtain ⟨h1, h2⟩ := h
    subst q2
    subst v2
    exact ⟨by simp, ⟨[], by simp, by simp, by simp⟩⟩
  | cons n rest ih =>
    intro q v q2 v2 h
    rw [scanNeighbors] at h
    by_cases hne : n = e
    · rw [if_pos hne] at h
      cases h
    · rw [if_neg hne] at h
      by_cases hv : v.contains n
      · rw [if_pos hv] at h
        obtain ⟨hall, news, hq, hvv, hnews⟩ := ih _ _ _ _ h
        refine ⟨?_, news, hq, hvv, ?_⟩
        · intro x hx
          rcases List.mem_cons.mp hx with rfl | hx
          · refine ⟨hne, ?_⟩
            rw [hvv]
            exact List.mem_append.mpr (Or.inl (by simpa using hv))
          · exact hall x hx
        · intro ent hent
          obtain ⟨he1, he2, he3⟩ := hnews ent hent
          exact ⟨he1, List.mem_cons_of_mem n he2, he3⟩
      · rw [if_neg hv] at h
        obtain ⟨hall, news, hq, hvv, hnews⟩ := ih _ _ _ _ h
        refine ⟨?_, (n, pa ++ [n]) :: news, ?_, ?_, ?_⟩
        · intro x hx
          rcases List.mem_cons.mp hx with rfl | hx
          · refine ⟨hne, ?_⟩
            rw [hvv]
            exact List.mem_append.mpr (Or.inl (by simp))
          · exact hall x hx
        · rw [hq]
          simp
        · rw [hvv]
          simp
        · intro ent hent
          rcases List.mem_cons.mp hent with rfl | hent
          · exact ⟨rfl, List.mem_cons_self _ _, by simpa using hv⟩
          · obtain ⟨he1, he2, he3⟩ := hnews ent hent
            refine ⟨he1, List.mem_cons_of_mem n he2, ?_⟩
            intro hc
            exact he3 (List.mem_append.mpr (Or.inl hc))

/-! ## BFS loop: the head finds the target, or the invariant is maintained -/

lemma pairwise_of_all {α : Type} {r : α → α → Prop} :
    ∀ (l : List α), (∀ a ∈ l, ∀ b ∈ l, r a b) → l.Pairwise r := by
  intro l
  induction l with
  | nil => intro _; exact List.Pairwise.nil
  | cons a t ih =>
    intro h
    exact List.Pairwise.cons
      (fun b hb => h a (List.mem_cons_self a t) b (List.mem_cons_of_mem a hb))
      (ih fun x hx y hy =>
        h x (List.mem_cons_of_mem a hx) y (List.mem_cons_of_mem a hy))

lemma bfs_found_spec {g : Graph} {s e node : Doc} {pa : List Doc}
    {rest : List (Doc × List Doc)} {v : List Doc}
    (hOK : QueueOK g s e ((node, pa) :: rest) v) (hadj : adjStep g node e) :
    WalkFrom g s e (pa ++ [e]) ∧
    ∀ p, WalkFrom g s e p → (pa ++ [e]).length ≤ p.length := by
  obtain ⟨hent, hord, hspread, henv, hclos, hcross⟩ := hOK
  obtain ⟨⟨hwalk, hne⟩, hnv⟩ := hent (node, pa) (List.mem_cons_self _ _)
  constructor
  · exact walkFrom_snoc hwalk hadj
  · intro p hp
    obtain ⟨ent, hentq, r2, hw2, hlen⟩ := hcross p hp
    have hminhead : pa.length ≤ ent.2.length := by
      rcases List.mem_cons.mp hentq with heq | hmem
      · subst heq
        exact le_rfl
      · simp only [List.map_cons] at hord
        exact (List.pairwise_cons.mp hord).1 ent.2.length
          (List.mem_map_of_mem _ hmem)
    have hr2 : 2 ≤ r2.length := walkFrom_two_le hw2 ((hent ent hentq).1.2)
    simp only [List.length_append, List.length_cons, List.length_nil]
    omega

lemma bfs_step_invariant {g : Graph} {s e node : Doc} {pa : List Doc}
    {rest q1 q2 : List (Doc × List Doc)} {v v1 v2 : List Doc}
    (hOK : QueueOK g s e ((node, pa) :: rest) v)
    (h1 : scanNeighbors e pa (getParents g node) rest v = Sum.inr (q1, v1))
    (h2 : scanNeighbors e pa (getChildren g node) q1 v1 = Sum.inr (q2, v2)) :
    QueueOK g s e q2 v2 := by
  obtain ⟨hent, hord, hspread, henv, hclos, hcross⟩ := hOK
  obtain ⟨hl1, news1, hq1, hv1, hnews1⟩ := scanNeighbors_inr_spec e pa _ _ _ _ _ h1
  obtain ⟨hl2, news2, hq2, hv2, hnews2⟩ := scanNeighbors_inr_spec e pa _ _ _ _ _ h2
  obtain ⟨⟨hwalkn, hnen⟩, hnv⟩ := hent (node, pa) (List.mem_cons_self _ _)
  have hq2struct : q2 = rest ++ news1 ++ news2 := by rw [hq2, hq1]
  have hv2struct : v2 = v ++ news1.map Prod.fst ++ news2.map Prod.fst := by
    rw [hv2, hv1]
  have hv_sub : ∀ x ∈ v, x ∈ v2 := by
    intro x hx
    rw [hv2struct]
    simp [hx]
  have hv1_sub : ∀ x ∈ v1, x ∈ v2 := by
    intro x hx
    rw [hv2]
    simp [hx]
  have hmemq2 : ∀ ent, ent ∈ q2 → ent ∈ rest ∨ ent ∈ news1 ∨ ent ∈ news2 := by
    intro ent hq
    rw [hq2struct] at hq
    simpa [List.mem_append, or_assoc] using hq
  have hrest_lo : ∀ ent ∈ rest, pa.length ≤ ent.2.length := by
    intro ent hm
    simp only [List.map_cons] at hord
    exact (List.pairwise_cons.mp hord).1 ent.2.length (List.mem_map_of_mem _ hm)
  have hrest_hi : ∀ ent ∈ rest, ent.2.length ≤ pa.length + 1 := by
    intro ent hm
    refine hspread ent.2.length ?_ pa.length ?_
    · exact List.mem_map_of_mem _ (List.mem_cons_of_mem _ hm)
    · exact List.mem_map.mpr ⟨(node, pa), List.mem_cons_self _ _, rfl⟩
  have hnews1_len : ∀ ent ∈ news1, ent.2.length = pa.length + 1 := by
    intro ent hm
    rw [(hnews1 ent hm).1]
    simp
  have hnews2_len : ∀ ent ∈ news2, ent.2.length = pa.length + 1 := by
    intro ent hm
    rw [(hnews2 ent hm).1]
    simp
  have hq2_lo : ∀ ent ∈ q2, pa.length ≤ ent.2.length := by
    intro ent hm
    rcases hmemq2 ent hm with hm | hm | hm
    · exact hrest_lo ent hm
    · rw [hnews1_len ent hm]; omega
    · rw [hnews2_len ent hm]; omega
  have hq2_hi : ∀ ent ∈ q2, ent.2.length ≤ pa.length + 1 := by
    intro ent hm
    rcases hmemq2 ent hm with hm | hm | hm
    · exact hrest_hi ent hm
    · rw [hnews1_len ent hm]
    · rw [hnews2_len ent hm]
  have hentOK : ∀ ent ∈ q2, (WalkFrom g s ent.1 ent.2 ∧ ent.1 ≠ e) ∧ ent.1 ∈ v2 := by
    intro ent hm
    rcases hmemq2 ent hm with hm | hm | hm
    · obtain ⟨h1a, h1b⟩ := hent ent (List.mem_cons_of_mem _ hm)
      exact ⟨h1a, hv_sub _ h1b⟩
    · obtain ⟨hpath, hmem1, -⟩ := hnews1 ent hm
      obtain ⟨hnee, hinv1⟩ := hl1 ent.1 hmem1
      refine ⟨⟨?_, hnee⟩, hv1_sub _ hinv1⟩
      rw [hpath]
      exact walkFrom_snoc hwalkn (Or.inl hmem1)
    · obtain ⟨hpath, hmem2, -⟩ := hnews2 ent hm
      obtain ⟨hnee, hinv2⟩ := hl2 ent.1 hmem2
      refine ⟨⟨?_, hnee⟩, hinv2⟩
      rw [hpath]
      exact walkFrom_snoc hwalkn (Or.inr hmem2)
  have henv2 : e ∉ v2 := by
    rw [hv2struct]
    intro hc
    rcases List.mem_append.mp hc with hc | hc
    · rcases List.mem_append.mp hc with hc | hc
      · exact henv hc
      · obtain ⟨ent, hm, hfst⟩ := List.mem_map.mp hc
        exact (hl1 ent.1 (hnews1 ent hm).2.1).1 hfst
    · obtain ⟨ent, hm, hfst⟩ := List.mem_map.mp hc
      exact (hl2 ent.1 (hnews2 ent hm).2.1).1 hfst
  have hclos2 : ∀ w ∈ v2, w ∉ q2.map Prod.fst → ∀ x, adjStep g w x →
      x ∈ v2 ∧ x ≠ e := by
    intro w hw hwq x hadj
    have hwv : w ∈ v := by
      rw [hv2struct] at hw
      rcases List.mem_append.mp hw with hw | hw
      · rcases List.mem_append.mp hw with hw | hw
        · exact hw
        · exfalso
          obtain ⟨ent, hm, hfst⟩ := List.mem_map.mp hw
          refine hwq (List.mem_map.mpr ⟨ent, ?_, hfst⟩)
          rw [hq2struct]
          simp [hm]
      · exfalso
        obtain ⟨ent, hm, hfst⟩ := List.mem_map.mp hw
        refine hwq (List.mem_map.mpr ⟨ent, ?_, hfst⟩)
        rw [hq2struct]
        simp [hm]
    by_cases hwold : w ∈ ((node, pa) :: rest).map Prod.fst
    · rcases List.mem_map.mp hwold with ⟨ent, hm, hfst⟩
      rcases List.mem_cons.mp hm with heq | hm
      · have hwnode : w = node := by rw [← hfst, heq]
        subst hwnode
        rcases hadj with hx | hx
        · obtain ⟨hnee, hinv1⟩ := hl1 x hx
          exact ⟨hv1_sub _ hinv1, hnee⟩
        · obtain ⟨hnee, hinv2⟩ := hl2 x hx
          exact ⟨hinv2, hnee⟩
      · exfalso
        refine hwq (List.mem_map.mpr ⟨ent, ?_, hfst⟩)
        rw [hq2struct]
        simp [hm]
    · obtain ⟨hxv, hxe⟩ := hclos w hwv hwold x hadj
      exact ⟨hv_sub _ hxv, hxe⟩
  refine ⟨hentOK, ?_, ?_, henv2, hclos2, ?_⟩
  · -- sortedness of the new queue lengths
    rw [hq2struct]
    simp only [List.map_append]
    rw [List.pairwise_append]
    refine ⟨?_, ?_, ?_⟩
    · rw [List.pairwise_append]
      refine ⟨?_, ?_, ?_⟩
      · simp only [List.map_cons] at hord
        exact (List.pairwise_cons.mp hord).2
      · refine pairwise_of_all _ ?_
        intro a ha b hb
        obtain ⟨e1, hm1, he1⟩ := List.mem_map.mp ha
        obtain ⟨e2, hm2, he2⟩ := List.mem_map.mp hb
        rw [← he1, ← he2, hnews1_len e1 hm1, hnews1_len e2 hm2]
      · intro a ha b hb
        obtain ⟨e1, hm1, he1⟩ := List.mem_map.mp ha
        obtain ⟨e2, hm2, he2⟩ := List.mem_map.mp hb
        rw [← he1, ← he2, hnews1_len e2 hm2]
        have := hrest_hi e1 hm1
        omega
    · refine pairwise_of_all _ ?_
      intro a ha b hb
      obtain ⟨e1, hm1, he1⟩ := List.mem_map.mp ha
      obtain ⟨e2, hm2, he2⟩ := List.mem_map.mp hb
      rw [← he1, ← he2, hnews2_len e1 hm1, hnews2_len e2 hm2]
    · intro a ha b hb
      obtain ⟨e2, hm2, he2⟩ := List.mem_map.mp hb
      rw [← he2, hnews2_len e2 hm2]
      rcases List.mem_append.mp ha with hA | hA
      · obtain ⟨e1, hm1, he1⟩ := List.mem_map.mp hA
        rw [← he1]
        have := hrest_hi e1 hm1
        omega
      · obtain ⟨e1, hm1, he1⟩ := List.mem_map.mp hA
        rw [← he1, hnews1_len e1 hm1]
  · -- spread of the new queue lengths
    intro x hx y hy
    obtain ⟨e1, hm1, he1⟩ := List.mem_map.mp hx
    obtain ⟨e2, hm2, he2⟩ := List.mem_map.mp hy
    have h1x : x ≤ pa.length + 1 := by rw [← he1]; exact hq2_hi e1 hm1
    have h2y : pa.length ≤ y := by rw [← he2]; exact hq2_lo e2 hm2
    omega
  · -- walks still cross the queue
    intro rq hrq
    obtain ⟨ent, hentq, r2, hw2, hlen⟩ := hcross rq hrq
    rcases List.mem_cons.mp hentq with heq | hmem
    · subst heq
      obtain ⟨x0, t, hr, hadj0, hw0⟩ := walkFrom_decompose hw2 hnen
      have hx0v2 : x0 ∈ v2 := by
        rcases hadj0 with hx | hx
        · exact hv1_sub _ (hl1 x0 hx).2
        · exact (hl2 x0 hx).2
      obtain ⟨ent2, hent2, r3, hw3, hlen3⟩ := walk_escape g e q2 v2 henv2 hclos2
        (x0 :: t).length (x0 :: t) x0 le_rfl hw0 hx0v2
      refine ⟨ent2, hent2, r3, hw3, ?_⟩
      have hhi := hq2_hi ent2 hent2
      have hrlen : r2.length = t.length + 2 := by rw [hr]; rfl
      have hpa2 : ((node, pa) : Doc × List Doc).2.length = pa.length := rfl
      simp only [List.length_cons] at hlen3
      omega
    · refine ⟨ent, ?_, r2, hw2, hlen⟩
      rw [hq2struct]
      simp [hmem]

lemma bfsSP_correct (g : Graph) (s e : Doc) :
    ∀ (fuel : Nat) (q : List (Doc × List Doc)) (v : List Doc),
      QueueOK g s e q v →
      ∀ result, bfsSP g s e fuel q v = some result →
        (result = none → ¬ ∃ p, WalkFrom g s e p) ∧
        (∀ np, result = some np → WalkFrom g s e np.path ∧
          np.length = np.path.length - 1 ∧
          ∀ p, WalkFrom g s e p → np.path.length ≤ p.length) := by
  intro fuel
  induction fuel with
  | zero =>
    intro q v _ result h
    cases h
  | succ fuel ih =>
    intro q v hOK result heq
    cases q with
    | nil =>
      have hres : result = none := by
        rw [show bfsSP g s e (fuel + 1) [] v = some none from rfl] at heq
        injection heq with h
        exact h.symm
      subst result
      refine ⟨?_, ?_⟩
      · rintro - ⟨p, hp⟩
        obtain ⟨ent, hent, -⟩ := hOK.2.2.2.2.2 p hp
        simp at hent
      · intro np hnp
        cases hnp
    | cons head rest =>
      obtain ⟨node, pa⟩ := head
      cases h1 : scanNeighbors e pa (getParents g node) rest v with
      | inl fp =>
        have hres : result = some ⟨s, e, fp, fp.length - 1, Direction.up⟩ := by
          have hbfs : bfsSP g s e (fuel + 1) ((node, pa) :: rest) v =
              some (some ⟨s, e, fp, fp.length - 1, Direction.up⟩) := by
            rw [bfsSP, h1]
          rw [hbfs] at heq
          injection heq with h
          exact h.symm
        subst result
        obtain ⟨hfp, hel⟩ := scanNeighbors_inl_spec e pa _ _ _ _ h1
        subst fp
        obtain ⟨hwalkres, hmin⟩ := bfs_found_spec hOK (Or.inl hel)
        constructor
        · intro hc
          cases hc
        · intro np hnp
          injection hnp with h
          rw [← h]
          exact ⟨hwalkres, rfl, hmin⟩
      | inr qv1 =>
        obtain ⟨q1, v1⟩ := qv1
        cases h2 : scanNeighbors e pa (getChildren g node) q1 v1 with
        | inl fp =>
          have hres : result = some ⟨s, e, fp, fp.length - 1, Direction.down⟩ := by
            have hbfs : bfsSP g s e (fuel + 1) ((node, pa) :: rest) v =
                some (some ⟨s, e, fp, fp.length - 1, Direction.down⟩) := by
              rw [bfsSP]
              simp only [h1, h2]
            rw [hbfs] at heq
            injection heq with h
            exact h.symm
          subst result
          obtain ⟨hfp, hel⟩ := scanNeighbors_inl_spec e pa _ _ _ _ h2
          subst fp
          obtain ⟨hwalkres, hmin⟩ := bfs_found_spec hOK (Or.inr hel)
          constructor
          · intro hc
            cases hc
          · intro np hnp
            injection hnp with h
            rw [← h]
            exact ⟨hwalkres, rfl, hmin⟩
        | inr qv2 =>
          obtain ⟨q2, v2⟩ := qv2
          have hstep : bfsSP g s e (fuel + 1) ((node, pa) :: rest) v =
              bfsSP g s e fuel q2 v2 := by
            rw [bfsSP]
            simp only [h1, h2]
          rw [hstep] at heq
          exact ih q2 v2 (bfs_step_invariant hOK h1 h2) result heq

/-! ## Claim C9 (findShortestPath correctness) -/

/-- C9: for distinct endpoints, findShortestPath returns null exactly when
no walk of the undirected view joins them, and an answer, when returned, is
a genuine walk from start to end whose length field is its edge count and
whose edge count is minimal over all undirected walks (hence over all
undirected paths); on the chain a→b→c→d the answer is [a, b, c, d] with
length 3. -/
theorem c9_shortest_path_correct :
    (∀ (g : Graph) (s e : Doc), s ≠ e →
      (findShortestPath g s e = none ↔ ¬ ∃ p, WalkFrom g s e p) ∧
      (∀ np, findShortestPath g s e = some np →
        WalkFrom g s e np.path ∧ np.length = np.path.length - 1 ∧
        ∀ p, WalkFrom g s e p → np.path.length ≤ p.length)) ∧
    findShortestPath chainG "a" "d" =
      some ⟨"a", "d", ["a", "b", "c", "d"], 3, Direction.up⟩ := by
  constructor
  · intro g s e hse
    have hQ0 : QueueOK g s e [(s, [s])] [s] := by
      refine ⟨?_, ?_, ?_, ?_, ?_, ?_⟩
      · intro ent hent
        simp only [List.mem_singleton] at hent
        subst ent
        exact ⟨⟨⟨List.chain'_singleton s, rfl, rfl⟩, hse⟩, List.mem_singleton_self s⟩
      · simp
      · simp
      · intro hc
        exact hse ((List.mem_singleton.mp hc).symm)
      · intro w hw hwq x hadj
        exfalso
        simp only [List.mem_singleton] at hw
        subst w
        exact hwq (by simp)
      · intro rq hrq
        refine ⟨(s, [s]), List.mem_singleton_self _, rq, hrq, ?_⟩
        simp only [List.length_singleton]
        omega
    have hsome : (bfsSP g s e (spFuel g s) [(s, [s])] [s]).isSome = true := by
      refine bfsSP_isSome g s e (docUniverse g s)
        (fun d x hx => parents_mem_docUniverse s (getParents_mem_universe hx))
        (fun d x hx => children_mem_docUniverse s (getChildren_mem_universe hx))
        (spFuel g s) [(s, [s])] [s] ?_
      have := unvisCount_le_length (docUniverse g s) [s]
      unfold spFuel
      simp only [List.length_cons, List.length_nil]
      omega
    obtain ⟨result, hres⟩ := Option.isSome_iff_exists.mp hsome
    have hcor := bfsSP_correct g s e (spFuel g s) [(s, [s])] [s] hQ0 result hres
    have hfsp : findShortestPath g s e = result := by
      unfold findShortestPath
      rw [if_neg hse, hres]
    refine ⟨⟨?_, ?_⟩, ?_⟩
    · intro hnone
      rw [hfsp] at hnone
      exact hcor.1 hnone
    · intro hnp
      cases result with
      | none => exact hfsp
      | some np =>
        exfalso
        obtain ⟨hw, -, -⟩ := hcor.2 np rfl
        exact hnp ⟨np.path, hw⟩
    · intro np hnp
      rw [hfsp] at hnp
      exact hcor.2 np hnp
  · decide

/-- C9 witness at the chain corpus with distinct endpoints a and d. -/
theorem c9_shortest_path_correct_witness :
    (findShortestPath chainG "a" "d" = none ↔ ¬ ∃ p, WalkFrom chainG "a" "d" p) ∧
    (∀ np, findShortestPath chainG "a" "d" = some np →
      WalkFrom chainG "a" "d" np.path ∧ np.length = np.path.length - 1 ∧
      ∀ p, WalkFrom chainG "a" "d" p → np.path.length ≤ p.length) :=
  c9_shortest_path_correct.1 chainG "a" "d" (by decide)

end RelObs
